import Mathlib

/-!
Verification of the constant-auxiliary-space depth-first traversal library
(`constant-size-dfs`): a shallow embedding of the tagged-pointer machinery,
the N-ary traversal state machine (`src/array_tree.rs`, identical logic in
`src/const_generic_tree.rs`), the binary specialization
(`src/binary_tree.rs`), and the randomized construction helper
`node_from_arbitrary`.

Pointers are modelled as natural numbers (`0` is the null pointer); heaps are
functions from addresses to optional nodes.  The low "seen" bit of each child
slot is modelled arithmetically: nodes are stored at even addresses (the
alignment-greater-than-one precondition of `TaggedPtr`), so setting the seen
bit is `2 * (p / 2) + 1` (the word `p ||| 1`) and clearing it is `2 * (p / 2)`
(the word `p &&& !1`).
-/

namespace CSD

/-! ## Tagged pointer words (`src/tagged_ptr.rs`) -/

/-- Word of `TaggedPtr::as_untagged`: clear the low bit (`p & !SEEN_BIT`). -/
def asUntagged (p : Nat) : Nat := 2 * (p / 2)

/-- Word of `TaggedPtr::is_seen`: test the low bit (`p & SEEN_BIT == SEEN_BIT`). -/
def isSeenW (p : Nat) : Bool := p % 2 == 1

/-- Word of `TaggedPtr::seen`: set the low bit (`p | SEEN_BIT`). -/
def seenW (p : Nat) : Nat := 2 * (p / 2) + 1

/-- Word of `TaggedPtr::unseen`: clear the low bit (`p & !SEEN_BIT`). -/
def unseenW (p : Nat) : Nat := 2 * (p / 2)

theorem asUntagged_even {p : Nat} (h : p % 2 = 0) : asUntagged p = p := by
  unfold asUntagged; omega

theorem unseenW_even {p : Nat} (h : p % 2 = 0) : unseenW p = p := by
  unfold unseenW; omega

theorem unseenW_seenW {p : Nat} (h : p % 2 = 0) : unseenW (seenW p) = p := by
  unfold unseenW seenW; omega

theorem asUntagged_seenW {p : Nat} (h : p % 2 = 0) : asUntagged (seenW p) = p := by
  unfold asUntagged seenW; omega

theorem isSeenW_seenW (p : Nat) : isSeenW (seenW p) = true := by
  unfold isSeenW seenW; simp; omega

theorem isSeenW_even {p : Nat} (h : p % 2 = 0) : isSeenW p = false := by
  unfold isSeenW; simp [h]

/-! ## Heaps of N-ary nodes (`src/array_tree.rs`) -/

/-- Model of `Node<T, N>`: a value and the list of `N` tagged child-slot
words. -/
structure HNode (α : Type) where
  val : α
  children : List Nat
  deriving DecidableEq, Repr

/-- A heap maps addresses to allocated N-ary nodes. -/
def Heap (α : Type) : Type := Nat → Option (HNode α)

/-- Store a node at an address. -/
def Heap.upd {α : Type} (h : Heap α) (a : Nat) (nd : HNode α) : Heap α :=
  fun x => if x = a then some nd else h x

theorem Heap.upd_same {α : Type} (h : Heap α) (a : Nat) (nd : HNode α) :
    h.upd a nd a = some nd := by
  simp [Heap.upd]

theorem Heap.upd_other {α : Type} (h : Heap α) (a : Nat) (nd : HNode α)
    {x : Nat} (hx : x ≠ a) : h.upd a nd x = h x := by
  simp [Heap.upd, hx]

/-- Traversal state of `NodeIter`: the heap plus the two navigation pointers
`prev` and `cur`. -/
structure St (α : Type) where
  h : Heap α
  prev : Nat
  cur : Nat

/-- Result of one iteration of the loop inside `NodeIter::next`:
the traversal is exhausted (`cur` is null), the state dereferenced a dangling
pointer (cannot happen from well-formed states; the Rust code would be
undefined there), or the loop performed one transition, possibly yielding the
processed node's address. -/
inductive StepRes (α : Type) where
  | finished
  | stuck
  | cont (s : St α) (yld : Option Nat)

/-- Child-slot restoration performed by the ascend logic (shared by
`NodeIter::next` and `NodeIter`'s drop implementation): for
`i in 0..(fu - 1)`, `slot[i] := slot[i+1].unseen()`, then
`slot[fu - 1] := TaggedPtr::from_untagged(prev).unseen()`, with slots from
`fu` on unchanged.  The loop reads each `slot[i+1]` before it is written, so
the result is the sliced form below. -/
def shiftSlots (cs : List Nat) (fu : Nat) (prev : Nat) : List Nat :=
  ((cs.drop 1).take (fu - 1)).map unseenW ++ [unseenW prev] ++ cs.drop fu

/-- One iteration of the loop body of `NodeIter::next`
(`src/array_tree.rs`, same code in `src/const_generic_tree.rs`):
find the first child slot not marked seen (`fu`, defaulting to `N`);
if `fu < N` convert that slot into a seen-tagged back-link to `prev` and
descend into the old child (an absent child is skipped by setting `prev` to
null); otherwise reconstruct the children by the shift and ascend to the
parent recovered from slot `0` (or directly from `prev` when `fu = 0`).
The address of the processed node is yielded when `fu = RA`
(`RETURN_ON_VISIT`). -/
def stepN {α : Type} (N RA : Nat) (s : St α) : StepRes α :=
  if s.cur = 0 then .finished else
  match s.h s.cur with
  | none => .stuck
  | some nd =>
    let fu := (nd.children.findIdx? (fun w => !isSeenW w)).getD N
    if fu < N then
      let child := asUntagged (nd.children.getD fu 0)
      let h' := s.h.upd s.cur ⟨nd.val, nd.children.set fu (seenW s.prev)⟩
      if child = 0 then
        .cont ⟨h', child, s.cur⟩ (if fu = RA then some s.cur else none)
      else
        .cont ⟨h', s.cur, child⟩ (if fu = RA then some s.cur else none)
    else
      if fu = 0 then
        .cont ⟨s.h, s.cur, s.prev⟩ (if fu = RA then some s.cur else none)
      else
        let parent := nd.children.getD 0 0
        let h' := s.h.upd s.cur ⟨nd.val, shiftSlots nd.children fu s.prev⟩
        .cont ⟨h', s.cur, asUntagged parent⟩ (if fu = RA then some s.cur else none)

/-- One iteration of the while-loop in the drop implementation of the N-ary
`NodeIter` (`src/array_tree.rs`): ascend once without yielding, restoring the
current node's converted slots; `none` when `cur` is null and the loop
exits. -/
def dropStep {α : Type} (N : Nat) (s : St α) : Option (St α) :=
  if s.cur = 0 then none else
  match s.h s.cur with
  | none => none
  | some nd =>
    let fu := (nd.children.findIdx? (fun w => !isSeenW w)).getD N
    if fu = 0 then some ⟨s.h, s.cur, s.prev⟩
    else
      let parent := nd.children.getD 0 0
      let h' := s.h.upd s.cur ⟨nd.val, shiftSlots nd.children fu s.prev⟩
      some ⟨h', s.cur, asUntagged parent⟩

/-- Drive `NodeIter::next` iterations until the traversal is exhausted,
collecting every yielded address in order (the fuel bounds the number of loop
iterations; with enough fuel this is the full sequence produced by repeated
`next()` calls). -/
def microRun {α : Type} (fuel N RA : Nat) (s : St α) : St α × List Nat :=
  match fuel with
  | 0 => (s, [])
  | fuel + 1 =>
    match stepN N RA s with
    | .finished => (s, [])
    | .stuck => (s, [])
    | .cont s' y =>
      let r := microRun fuel N RA s'
      (r.1, y.toList ++ r.2)

/-- Drive `NodeIter::next` iterations until `k` addresses have been yielded,
stopping immediately after the `k`-th yield exactly as a caller who stops
calling `next()` does. -/
def microTake {α : Type} (fuel k N RA : Nat) (s : St α) : St α × List Nat :=
  match fuel with
  | 0 => (s, [])
  | fuel + 1 =>
    if k = 0 then (s, []) else
    match stepN N RA s with
    | .finished => (s, [])
    | .stuck => (s, [])
    | .cont s' y =>
      match y with
      | none => microTake fuel k N RA s'
      | some a =>
        let r := microTake fuel (k - 1) N RA s'
        (r.1, a :: r.2)

/-- Run the drop implementation's while-loop to completion (fuelled). -/
def dropRun {α : Type} (fuel N : Nat) (s : St α) : St α :=
  match fuel with
  | 0 => s
  | fuel + 1 =>
    match dropStep N s with
    | none => s
    | some s' => dropRun fuel N s'

/-- State reached after exactly `j` loop iterations of `NodeIter::next`
(`none` once the traversal has exhausted within the first `j` iterations). -/
def iterN {α : Type} (j N RA : Nat) (s : St α) : Option (St α) :=
  match j with
  | 0 => some s
  | j + 1 =>
    match stepN N RA s with
    | .cont s' _ => iterN j N RA s'
    | _ => none

end CSD

namespace CSD

/-! ## Logical N-ary trees

The owned tree structure that a well-formed heap represents: a node knows its
own address, its value, and its list of `N` child slots, each either absent
(a null pointer in the heap) or a child tree. -/

mutual
inductive NTree (α : Type) where
  | node (addr : Nat) (val : α) (children : NForest α)
  deriving DecidableEq
inductive NForest (α : Type) where
  | nil
  | snull (rest : NForest α)
  | scons (c : NTree α) (rest : NForest α)
  deriving DecidableEq
end

def NTree.addr {α : Type} : NTree α → Nat
  | .node a _ _ => a

def NTree.val {α : Type} : NTree α → α
  | .node _ v _ => v

def NTree.children {α : Type} : NTree α → NForest α
  | .node _ _ cs => cs

/-- Number of child slots. -/
def NForest.flen {α : Type} : NForest α → Nat
  | .nil => 0
  | .snull rest => rest.flen + 1
  | .scons _ rest => rest.flen + 1

/-- Slot lookup: `none` when the index is out of range, `some none` for a
null slot, `some (some c)` for a child. -/
def NForest.fget {α : Type} : NForest α → Nat → Option (Option (NTree α))
  | .nil, _ => none
  | .snull _, 0 => some none
  | .snull rest, i + 1 => rest.fget i
  | .scons c _, 0 => some (some c)
  | .scons _ rest, i + 1 => rest.fget i

/-- Drop the first `i` slots. -/
def NForest.fdrop {α : Type} : Nat → NForest α → NForest α
  | 0, fs => fs
  | _ + 1, .nil => .nil
  | i + 1, .snull rest => NForest.fdrop i rest
  | i + 1, .scons _ rest => NForest.fdrop i rest

mutual
def NTree.taddrs {α : Type} : NTree α → List Nat
  | .node a _ cs => a :: cs.faddrs
def NForest.faddrs {α : Type} : NForest α → List Nat
  | .nil => []
  | .snull rest => rest.faddrs
  | .scons c rest => c.taddrs ++ rest.faddrs
end

/-- Slot words as they sit in a heap at rest: a null slot is the null word,
a child slot is the child's (even, untagged) address. -/
def NForest.origWords {α : Type} : NForest α → List Nat
  | .nil => []
  | .snull rest => 0 :: rest.origWords
  | .scons c rest => c.addr :: rest.origWords

/-- Word stored in slot `i` at rest. -/
def NForest.childWord {α : Type} (cs : NForest α) (i : Nat) : Nat :=
  cs.origWords.getD i 0

mutual
/-- Independent recursive pre-order address sequence. -/
def NTree.preA {α : Type} : NTree α → List Nat
  | .node a _ cs => a :: cs.fpreA
def NForest.fpreA {α : Type} : NForest α → List Nat
  | .nil => []
  | .snull rest => rest.fpreA
  | .scons c rest => c.preA ++ rest.fpreA
end

mutual
/-- Independent recursive pre-order value sequence (the reference
stack-based traversal the spec compares against). -/
def NTree.preV {α : Type} : NTree α → List α
  | .node _ v cs => v :: cs.fpreV
def NForest.fpreV {α : Type} : NForest α → List α
  | .nil => []
  | .snull rest => rest.fpreV
  | .scons c rest => c.preV ++ rest.fpreV
end

mutual
/-- Independent recursive post-order address sequence. -/
def NTree.postA {α : Type} : NTree α → List Nat
  | .node a _ cs => cs.fpostA ++ [a]
def NForest.fpostA {α : Type} : NForest α → List Nat
  | .nil => []
  | .snull rest => rest.fpostA
  | .scons c rest => c.postA ++ rest.fpostA
end

mutual
/-- Addresses yielded by the traversal machine over this subtree, for a given
`RETURN_ON_VISIT`: one candidate yield per slot index `k` (emitted when
`k = RA`) plus the ascend-time candidate (emitted when the slot count equals
`RA`). -/
def NTree.tvisits {α : Type} (RA : Nat) : NTree α → List Nat
  | .node a _ cs => cs.fvisits RA a 0 ++ (if cs.flen = RA then [a] else [])
def NForest.fvisits {α : Type} (RA a k : Nat) : NForest α → List Nat
  | .nil => []
  | .snull rest => (if k = RA then [a] else []) ++ rest.fvisits RA a (k + 1)
  | .scons c rest =>
    (if k = RA then [a] else []) ++ c.tvisits RA ++ rest.fvisits RA a (k + 1)
end

mutual
/-- Exact number of `NodeIter::next` loop iterations a full traversal spends
on this subtree: one iteration per slot plus the final ascend, plus the
iterations of each present child. -/
def NTree.tsteps {α : Type} : NTree α → Nat
  | .node _ _ cs => cs.fsteps + 1
def NForest.fsteps {α : Type} : NForest α → Nat
  | .nil => 0
  | .snull rest => 1 + rest.fsteps
  | .scons c rest => 1 + c.tsteps + rest.fsteps
end

mutual
/-- Representation predicate: the heap stores, at every node address of the
tree, exactly that node's value and its at-rest slot words (children owned,
every seen tag clear), node addresses are non-null and even (alignment above
one byte), and every node has exactly `N` slots. -/
def repT {α : Type} (h : Heap α) (N : Nat) : NTree α → Prop
  | .node a v cs =>
    a ≠ 0 ∧ a % 2 = 0 ∧ h a = some ⟨v, cs.origWords⟩ ∧ cs.flen = N ∧ repF h N cs
def repF {α : Type} (h : Heap α) (N : Nat) : NForest α → Prop
  | .nil => True
  | .snull rest => repF h N rest
  | .scons c rest => repT h N c ∧ repF h N rest
end

mutual
def decRepT {α : Type} [DecidableEq α] (h : Heap α) (N : Nat) :
    (t : NTree α) → Decidable (repT h N t)
  | .node a v cs =>
    have : Decidable (repF h N cs) := decRepF h N cs
    by unfold repT; infer_instance
def decRepF {α : Type} [DecidableEq α] (h : Heap α) (N : Nat) :
    (cs : NForest α) → Decidable (repF h N cs)
  | .nil => by unfold repF; infer_instance
  | .snull rest =>
    have : Decidable (repF h N rest) := decRepF h N rest
    by unfold repF; infer_instance
  | .scons c rest =>
    have : Decidable (repT h N c) := decRepT h N c
    have : Decidable (repF h N rest) := decRepF h N rest
    by unfold repF; infer_instance
end

instance {α : Type} [DecidableEq α] (h : Heap α) (N : Nat) (t : NTree α) :
    Decidable (repT h N t) := decRepT h N t

instance {α : Type} [DecidableEq α] (h : Heap α) (N : Nat) (cs : NForest α) :
    Decidable (repF h N cs) := decRepF h N cs

/-- Well-formed tree at rest: represented in the heap with pairwise distinct
node addresses. -/
def Wf {α : Type} (h : Heap α) (N : Nat) (t : NTree α) : Prop :=
  repT h N t ∧ (t.taddrs).Nodup

instance {α : Type} [DecidableEq α] (h : Heap α) (N : Nat) (t : NTree α) :
    Decidable (Wf h N t) := by unfold Wf; infer_instance

/-- Value stored at an address. -/
def valAt {α : Type} (h : Heap α) (a : Nat) : Option α := (h a).map HNode.val

/-- Does the node stored at `x` have any seen-tagged child slot? -/
def hasSeenSlot {α : Type} (h : Heap α) (x : Nat) : Bool :=
  match h x with
  | some nd => nd.children.any isSeenW
  | none => false

end CSD

namespace CSD

/-! ## Zipper view of mid-traversal states

A mid-traversal state of the N-ary machine is characterized by the focused
subtree, the number `k` of its slots already converted to back-links, and the
stack of ancestor frames (each an ancestor subtree with its own conversion
count).  The heap at such a state is the at-rest heap overridden exactly on
the spine nodes. -/

/-- An ancestor on the traversal spine: its subtree in the original tree and
how many of its slots are converted (at least one: the slot the traversal
descended through). -/
structure Frame (α : Type) where
  t : NTree α
  k : Nat

/-- Abstract traversal state: either mid-run or completely unwound. -/
inductive ZState (α : Type) where
  | run (stack : List (Frame α)) (t : NTree α) (k : Nat)
  | done

/-- Address of the nearest enclosing spine node (null at the root). -/
def headAddr {α : Type} : List (Frame α) → Nat
  | [] => 0
  | f :: _ => f.t.addr

/-- Slot words of a node whose first `k` slots are converted: slot `0` holds
the seen-tagged parent pointer, slot `i` (for `1 ≤ i < k`) holds the
seen-tagged original word of slot `i - 1`, and slots from `k` on are
untouched. -/
def convSlots (orig : List Nat) (k p : Nat) : List Nat :=
  if k = 0 then orig
  else seenW p :: (orig.take (k - 1)).map seenW ++ orig.drop k

/-- Heap contents of the spine nodes described by a frame stack. -/
def stackEntries {α : Type} : List (Frame α) → List (Nat × HNode α)
  | [] => []
  | f :: rest =>
    (f.t.addr, ⟨f.t.val, convSlots f.t.children.origWords f.k (headAddr rest)⟩)
      :: stackEntries rest

/-- Override a heap with a list of entries. -/
def applyEntries {α : Type} (h : Heap α) : List (Nat × HNode α) → Heap α
  | [] => h
  | (a, nd) :: rest => applyEntries (h.upd a nd) rest

/-- Concrete machine state denoted by an abstract state over the at-rest heap
`h0` of the tree `t0`. -/
def decodeSt {α : Type} (h0 : Heap α) (t0 : NTree α) : ZState α → St α
  | .done => ⟨h0, t0.addr, 0⟩
  | .run stack t k =>
    ⟨applyEntries h0
        ((t.addr, ⟨t.val, convSlots t.children.origWords k (headAddr stack)⟩)
          :: stackEntries stack),
      if k = 0 then headAddr stack else t.children.childWord (k - 1),
      t.addr⟩

/-- The frame stack is the ancestor chain of the focused subtree inside
`t0`, each ancestor descended through its slot `f.k - 1`. -/
def spineOk {α : Type} (t0 : NTree α) : List (Frame α) → NTree α → Prop
  | [], t => t = t0
  | f :: rest, t =>
    spineOk t0 rest f.t ∧ 1 ≤ f.k ∧ f.t.children.fget (f.k - 1) = some (some t)

/-- Valid abstract states. -/
def ZOk {α : Type} (t0 : NTree α) : ZState α → Prop
  | .done => True
  | .run stack t k => spineOk t0 stack t ∧ k ≤ t.children.flen

/-- Abstract counterpart of one `NodeIter::next` loop iteration: skip a null
slot, descend into a child, or ascend (possibly finishing); `none` once the
traversal is exhausted. -/
def zipStep {α : Type} (RA : Nat) : ZState α → Option (ZState α × Option Nat)
  | .done => none
  | .run stack t k =>
    match t.children.fget k with
    | some none =>
      some (.run stack t (k + 1), if k = RA then some t.addr else none)
    | some (some c) =>
      some (.run (⟨t, k + 1⟩ :: stack) c 0, if k = RA then some t.addr else none)
    | none =>
      let y := if t.children.flen = RA then some t.addr else none
      match stack with
      | [] => some (.done, y)
      | f :: rest => some (.run rest f.t f.k, y)

/-- Abstract counterpart of one drop-loop iteration: restore the focused node
and pop (the drop loop never descends). -/
def zdropStep {α : Type} : ZState α → Option (ZState α)
  | .done => none
  | .run [] _ _ => some .done
  | .run (f :: rest) _ _ => some (.run rest f.t f.k)

/-- Abstract mirror of `microRun`. -/
def ziterate {α : Type} (fuel RA : Nat) (Z : ZState α) : ZState α × List Nat :=
  match fuel with
  | 0 => (Z, [])
  | fuel + 1 =>
    match zipStep RA Z with
    | none => (Z, [])
    | some (Z', y) =>
      let r := ziterate fuel RA Z'
      (r.1, y.toList ++ r.2)

/-- Abstract mirror of `microTake`. -/
def ztake {α : Type} (fuel k RA : Nat) (Z : ZState α) : ZState α × List Nat :=
  match fuel with
  | 0 => (Z, [])
  | fuel + 1 =>
    if k = 0 then (Z, []) else
    match zipStep RA Z with
    | none => (Z, [])
    | some (Z', y) =>
      match y with
      | none => ztake fuel k RA Z'
      | some a =>
        let r := ztake fuel (k - 1) RA Z'
        (r.1, a :: r.2)

/-- Abstract mirror of `iterN`. -/
def zreach {α : Type} (j RA : Nat) (Z : ZState α) : Option (ZState α) :=
  match j with
  | 0 => some Z
  | j + 1 =>
    match zipStep RA Z with
    | some (Z', _) => zreach j RA Z'
    | none => none

/-! ## Membership, subtrees, chains -/

/-- A child occurring in a slot of a forest. -/
inductive MemF {α : Type} : NTree α → NForest α → Prop
  | hd (c : NTree α) (rest : NForest α) : MemF c (.scons c rest)
  | tl_null {c : NTree α} {rest : NForest α} : MemF c rest → MemF c (.snull rest)
  | tl_cons {c c' : NTree α} {rest : NForest α} : MemF c rest → MemF c (.scons c' rest)

/-- Subtree relation (reflexive, descending through child slots). -/
inductive SubT {α : Type} : NTree α → NTree α → Prop
  | refl (t : NTree α) : SubT t t
  | step {sub c : NTree α} (a : Nat) (v : α) (cs : NForest α) :
      MemF c cs → SubT sub c → SubT sub (.node a v cs)

/-- Address lists of descending paths starting at the root of a tree. -/
inductive Chain {α : Type} : NTree α → List Nat → Prop
  | nil (t : NTree α) : Chain t []
  | one (a : Nat) (v : α) (cs : NForest α) : Chain (.node a v cs) [a]
  | cons {c : NTree α} {rest : List Nat} (a : Nat) (v : α) (cs : NForest α) :
      MemF c cs → Chain c rest → Chain (.node a v cs) (a :: rest)

end CSD

namespace CSD

/-! ## Heap and override algebra -/

theorem Heap.upd_upd {α : Type} (h : Heap α) (a : Nat) (nd1 nd2 : HNode α) :
    (h.upd a nd1).upd a nd2 = h.upd a nd2 := by
  funext x
  by_cases hx : x = a <;> simp [Heap.upd, hx]

theorem Heap.upd_self_noop {α : Type} {h : Heap α} {a : Nat} {nd : HNode α}
    (hx : h a = some nd) : h.upd a nd = h := by
  funext x
  by_cases hxa : x = a <;> simp [Heap.upd, hxa, hx.symm]

theorem applyEntries_not_mem {α : Type} {es : List (Nat × HNode α)} {x : Nat}
    (hx : x ∉ es.map Prod.fst) : ∀ h : Heap α, applyEntries h es x = h x := by
  induction es with
  | nil => intro h; rfl
  | cons e rest ih =>
    intro h
    simp only [List.map_cons, List.mem_cons] at hx
    push_neg at hx
    simp only [applyEntries]
    rw [ih hx.2, Heap.upd_other _ _ _ hx.1]

theorem applyEntries_congr_at {α : Type} {h1 h2 : Heap α} {x : Nat}
    (hx : h1 x = h2 x) : ∀ es : List (Nat × HNode α),
    applyEntries h1 es x = applyEntries h2 es x := by
  intro es
  induction es generalizing h1 h2 with
  | nil => exact hx
  | cons e rest ih =>
    simp only [applyEntries]
    apply ih
    by_cases hxe : x = e.1 <;> simp [Heap.upd, hxe, hx]

theorem applyEntries_cons_comm {α : Type} {a : Nat} {nd : HNode α}
    {es : List (Nat × HNode α)} (ha : a ∉ es.map Prod.fst) (h : Heap α) :
    applyEntries h ((a, nd) :: es) = (applyEntries h es).upd a nd := by
  funext x
  by_cases hx : x = a
  · subst hx
    simp only [applyEntries]
    rw [applyEntries_not_mem ha, Heap.upd_same, Heap.upd_same]
  · simp only [applyEntries]
    rw [Heap.upd_other _ _ _ hx]
    exact applyEntries_congr_at (Heap.upd_other _ _ _ hx) es

/-! ## Induction principles for the mutual tree type -/

theorem NForest.recSimple {α : Type} {motive : NForest α → Prop}
    (hnil : motive .nil)
    (hsnull : ∀ rest, motive rest → motive (.snull rest))
    (hscons : ∀ c rest, motive rest → motive (.scons c rest)) :
    ∀ cs : NForest α, motive cs
  | .nil => hnil
  | .snull rest => hsnull rest (NForest.recSimple hnil hsnull hscons rest)
  | .scons c rest => hscons c rest (NForest.recSimple hnil hsnull hscons rest)

mutual
theorem NTree.mutIndT {α : Type} {mt : NTree α → Prop} {mf : NForest α → Prop}
    (hnode : ∀ a v cs, mf cs → mt (.node a v cs))
    (hnil : mf .nil)
    (hsnull : ∀ rest, mf rest → mf (.snull rest))
    (hscons : ∀ c rest, mt c → mf rest → mf (.scons c rest)) :
    ∀ t : NTree α, mt t
  | .node a v cs => hnode a v cs (NForest.mutIndF hnode hnil hsnull hscons cs)
theorem NForest.mutIndF {α : Type} {mt : NTree α → Prop} {mf : NForest α → Prop}
    (hnode : ∀ a v cs, mf cs → mt (.node a v cs))
    (hnil : mf .nil)
    (hsnull : ∀ rest, mf rest → mf (.snull rest))
    (hscons : ∀ c rest, mt c → mf rest → mf (.scons c rest)) :
    ∀ cs : NForest α, mf cs
  | .nil => hnil
  | .snull rest => hsnull rest (NForest.mutIndF hnode hnil hsnull hscons rest)
  | .scons c rest =>
    hscons c rest (NTree.mutIndT hnode hnil hsnull hscons c)
      (NForest.mutIndF hnode hnil hsnull hscons rest)
end

/-! ## Forest and slot-word lemmas -/

theorem origWords_length {α : Type} (cs : NForest α) :
    cs.origWords.length = cs.flen := by
  induction cs using NForest.recSimple with
  | hnil => rfl
  | hsnull rest ih => simp [NForest.origWords, NForest.flen, ih]
  | hscons c rest ih => simp [NForest.origWords, NForest.flen, ih]

theorem fget_eq_none_iff {α : Type} (cs : NForest α) (i : Nat) :
    cs.fget i = none ↔ cs.flen ≤ i := by
  induction cs using NForest.recSimple generalizing i with
  | hnil => simp [NForest.fget, NForest.flen]
  | hsnull rest ih =>
    cases i with
    | zero => simp [NForest.fget, NForest.flen]
    | succ i => simp only [NForest.fget, NForest.flen, ih]; omega
  | hscons c rest ih =>
    cases i with
    | zero => simp [NForest.fget, NForest.flen]
    | succ i => simp only [NForest.fget, NForest.flen, ih]; omega

theorem fget_isSome_iff {α : Type} (cs : NForest α) (i : Nat) :
    (cs.fget i).isSome ↔ i < cs.flen := by
  rcases h : cs.fget i with _ | o
  · simp [(fget_eq_none_iff cs i).1 h]
  · have : ¬ cs.fget i = none := by simp [h]
    rw [fget_eq_none_iff] at this
    simp; omega

theorem childWord_null {α : Type} {cs : NForest α} {i : Nat}
    (h : cs.fget i = some none) : cs.childWord i = 0 := by
  induction cs using NForest.recSimple generalizing i with
  | hnil => simp [NForest.fget] at h
  | hsnull rest ih =>
    cases i with
    | zero => simp [NForest.childWord, NForest.origWords]
    | succ i =>
      simp only [NForest.fget] at h
      simpa [NForest.childWord, NForest.origWords] using ih h
  | hscons c rest ih =>
    cases i with
    | zero => simp [NForest.fget] at h
    | succ i =>
      simp only [NForest.fget] at h
      simpa [NForest.childWord, NForest.origWords] using ih h

theorem childWord_child {α : Type} {cs : NForest α} {i : Nat} {c : NTree α}
    (h : cs.fget i = some (some c)) : cs.childWord i = c.addr := by
  induction cs using NForest.recSimple generalizing i with
  | hnil => simp [NForest.fget] at h
  | hsnull rest ih =>
    cases i with
    | zero => simp [NForest.fget] at h
    | succ i =>
      simp only [NForest.fget] at h
      simpa [NForest.childWord, NForest.origWords] using ih h
  | hscons c' rest ih =>
    cases i with
    | zero =>
      simp only [NForest.fget, Option.some.injEq] at h
      subst h
      simp [NForest.childWord, NForest.origWords]
    | succ i =>
      simp only [NForest.fget] at h
      simpa [NForest.childWord, NForest.origWords] using ih h

theorem repF_fget_child {α : Type} {h : Heap α} {N : Nat} {cs : NForest α}
    {i : Nat} {c : NTree α} (hrep : repF h N cs)
    (hg : cs.fget i = some (some c)) : repT h N c := by
  induction cs using NForest.recSimple generalizing i with
  | hnil => simp [NForest.fget] at hg
  | hsnull rest ih =>
    cases i with
    | zero => simp [NForest.fget] at hg
    | succ i =>
      simp only [NForest.fget] at hg
      exact ih (by simpa [repF] using hrep) hg
  | hscons c' rest ih =>
    rw [repF] at hrep
    cases i with
    | zero =>
      simp only [NForest.fget, Option.some.injEq] at hg
      subst hg
      exact hrep.1
    | succ i =>
      simp only [NForest.fget] at hg
      exact ih hrep.2 hg

theorem repF_words_even {α : Type} {h : Heap α} {N : Nat} {cs : NForest α}
    (hrep : repF h N cs) : ∀ w ∈ cs.origWords, w % 2 = 0 := by
  induction cs using NForest.recSimple with
  | hnil => simp [NForest.origWords]
  | hsnull rest ih =>
    simp only [NForest.origWords, List.mem_cons]
    rintro w (rfl | hw)
    · rfl
    · exact ih (by simpa [repF] using hrep) w hw
  | hscons c rest ih =>
    rw [repF] at hrep
    simp only [NForest.origWords, List.mem_cons]
    rintro w (rfl | hw)
    · obtain ⟨a, v, cs'⟩ := c
      have := hrep.1
      rw [repT] at this
      simpa [NTree.addr] using this.2.1
    · exact ih hrep.2 w hw

theorem repT_addr_even {α : Type} {h : Heap α} {N : Nat} {t : NTree α}
    (hrep : repT h N t) : t.addr % 2 = 0 := by
  obtain ⟨a, v, cs⟩ := t
  rw [repT] at hrep
  simpa [NTree.addr] using hrep.2.1

theorem repT_addr_ne {α : Type} {h : Heap α} {N : Nat} {t : NTree α}
    (hrep : repT h N t) : t.addr ≠ 0 := by
  obtain ⟨a, v, cs⟩ := t
  rw [repT] at hrep
  simpa [NTree.addr] using hrep.1

theorem repT_lookup {α : Type} {h : Heap α} {N : Nat} {t : NTree α}
    (hrep : repT h N t) :
    h t.addr = some ⟨t.val, t.children.origWords⟩ := by
  obtain ⟨a, v, cs⟩ := t
  rw [repT] at hrep
  simpa [NTree.addr, NTree.val, NTree.children] using hrep.2.2.1

theorem repT_flen {α : Type} {h : Heap α} {N : Nat} {t : NTree α}
    (hrep : repT h N t) : t.children.flen = N := by
  obtain ⟨a, v, cs⟩ := t
  rw [repT] at hrep
  simpa [NTree.children] using hrep.2.2.2.1

theorem repT_children {α : Type} {h : Heap α} {N : Nat} {t : NTree α}
    (hrep : repT h N t) : repF h N t.children := by
  obtain ⟨a, v, cs⟩ := t
  rw [repT] at hrep
  simpa [NTree.children] using hrep.2.2.2.2

end CSD

namespace CSD

/-! ## Spine facts -/

theorem taddrs_node {α : Type} (a : Nat) (v : α) (cs : NForest α) :
    (NTree.node a v cs).taddrs = a :: cs.faddrs := by
  rw [NTree.taddrs]

theorem addr_mem_taddrs {α : Type} (t : NTree α) : t.addr ∈ t.taddrs := by
  obtain ⟨a, v, cs⟩ := t
  rw [taddrs_node]
  simp [NTree.addr]

theorem fget_sublist {α : Type} {cs : NForest α} {i : Nat} {c : NTree α}
    (h : cs.fget i = some (some c)) : c.taddrs.Sublist cs.faddrs := by
  induction cs using NForest.recSimple generalizing i with
  | hnil => simp [NForest.fget] at h
  | hsnull rest ih =>
    cases i with
    | zero => simp [NForest.fget] at h
    | succ i =>
      simp only [NForest.fget] at h
      simpa [NForest.faddrs] using ih h
  | hscons c' rest ih =>
    cases i with
    | zero =>
      simp only [NForest.fget, Option.some.injEq] at h
      subst h
      simpa [NForest.faddrs] using List.sublist_append_left c.taddrs rest.faddrs
    | succ i =>
      simp only [NForest.fget] at h
      rw [NForest.faddrs]
      exact (ih h).trans (List.sublist_append_right _ _)

/-- Addresses of the frames on a spine, focus side first. -/
def stackAddrs {α : Type} (stack : List (Frame α)) : List Nat :=
  stack.map (fun f => f.t.addr)

theorem stackEntries_fst {α : Type} (stack : List (Frame α)) :
    (stackEntries stack).map Prod.fst = stackAddrs stack := by
  induction stack with
  | nil => rfl
  | cons f rest ih => simp [stackEntries, stackAddrs] at ih ⊢; exact ih

theorem spine_rep {α : Type} {h0 : Heap α} {N : Nat} {t0 t : NTree α}
    {stack : List (Frame α)} (hrep : repT h0 N t0) (hsp : spineOk t0 stack t) :
    repT h0 N t ∧ ∀ f ∈ stack, repT h0 N f.t := by
  induction stack generalizing t with
  | nil =>
    rw [spineOk] at hsp
    subst hsp
    exact ⟨hrep, by simp⟩
  | cons f rest ih =>
    rw [spineOk] at hsp
    obtain ⟨hsp', hk1, hget⟩ := hsp
    obtain ⟨hf, hrest⟩ := ih hsp'
    refine ⟨repF_fget_child (repT_children hf) hget, ?_⟩
    intro g hg
    rcases List.mem_cons.1 hg with rfl | hg'
    · exact hf
    · exact hrest g hg'

theorem taddrs_eq {α : Type} (t : NTree α) :
    t.taddrs = t.addr :: t.children.faddrs := by
  obtain ⟨a, v, cs⟩ := t
  rw [NTree.taddrs]
  rfl

theorem spine_nodup_sub {α : Type} {t0 t : NTree α} {stack : List (Frame α)}
    (hsp : spineOk t0 stack t) (hnd : t0.taddrs.Nodup) :
    (stackAddrs stack ++ t.taddrs).Nodup ∧
      ∀ x ∈ stackAddrs stack ++ t.taddrs, x ∈ t0.taddrs := by
  induction stack generalizing t with
  | nil =>
    rw [spineOk] at hsp
    subst hsp
    simpa [stackAddrs] using hnd
  | cons f rest ih =>
    rw [spineOk] at hsp
    obtain ⟨hsp', hk1, hget⟩ := hsp
    obtain ⟨ihnd, ihsub⟩ := ih hsp'
    have hsubl : (f.t.addr :: t.taddrs).Sublist f.t.taddrs := by
      rw [taddrs_eq f.t]
      exact (fget_sublist hget).cons₂ f.t.addr
    have hnd2 : (stackAddrs rest ++ (f.t.addr :: t.taddrs)).Nodup :=
      List.Nodup.sublist (hsubl.append_left (stackAddrs rest)) ihnd
    have hperm : (stackAddrs rest ++ f.t.addr :: t.taddrs).Perm
        (f.t.addr :: (stackAddrs rest ++ t.taddrs)) := List.perm_middle
    have heq : stackAddrs (f :: rest) ++ t.taddrs
        = f.t.addr :: (stackAddrs rest ++ t.taddrs) := by
      simp [stackAddrs]
    constructor
    · rw [heq]
      exact hperm.nodup hnd2
    · intro x hx
      rw [heq] at hx
      rcases List.mem_cons.1 hx with rfl | hx'
      · exact ihsub _ (by simp [addr_mem_taddrs])
      · rcases List.mem_append.1 hx' with hx2 | hx2
        · exact ihsub _ (by simp [hx2])
        · exact ihsub _ (by
            have : x ∈ f.t.taddrs := hsubl.subset (by simp [hx2])
            simp [this])

theorem spine_focus_not_stack {α : Type} {t0 t : NTree α}
    {stack : List (Frame α)} (hsp : spineOk t0 stack t)
    (hnd : t0.taddrs.Nodup) : t.addr ∉ stackAddrs stack := by
  obtain ⟨hnd2, _⟩ := spine_nodup_sub hsp hnd
  rw [List.nodup_append] at hnd2
  intro hmem
  exact hnd2.2.2 hmem (addr_mem_taddrs t)

theorem headAddr_even {α : Type} {h0 : Heap α} {N : Nat}
    {stack : List (Frame α)} (hrep : ∀ f ∈ stack, repT h0 N f.t) :
    headAddr stack % 2 = 0 := by
  cases stack with
  | nil => rfl
  | cons f rest => exact repT_addr_even (hrep f (by simp)) (N := N)

end CSD

namespace CSD

/-! ## Converted-slot algebra -/

theorem convSlots_zero (orig : List Nat) (p : Nat) : convSlots orig 0 p = orig := by
  simp [convSlots]

theorem convSlots_pos {k : Nat} (orig : List Nat) (p : Nat) (hk : 1 ≤ k) :
    convSlots orig k p
      = seenW p :: (orig.take (k - 1)).map seenW ++ orig.drop k := by
  have : k ≠ 0 := by omega
  simp [convSlots, this]

theorem convSlots_length {k : Nat} {orig : List Nat} (p : Nat)
    (hk : k ≤ orig.length) : (convSlots orig k p).length = orig.length := by
  rcases Nat.eq_zero_or_pos k with rfl | hpos
  · rw [convSlots_zero]
  · rw [convSlots_pos orig p hpos]
    simp
    omega

theorem map_unseen_seen {l : List Nat} (h : ∀ w ∈ l, w % 2 = 0) :
    (l.map seenW).map unseenW = l := by
  rw [List.map_map]
  have : ∀ w ∈ l, (unseenW ∘ seenW) w = id w := by
    intro w hw
    simp [Function.comp, unseenW_seenW (h w hw)]
  rw [List.map_congr_left this, List.map_id]

theorem findIdx?_all_seen {pre suf : List Nat}
    (h : ∀ x ∈ pre, isSeenW x = true) :
    List.findIdx? (fun w => !isSeenW w) (pre ++ suf)
      = (List.findIdx? (fun w => !isSeenW w) suf).map (· + pre.length) := by
  induction pre with
  | nil => simp
  | cons x pre ih =>
    have hx : isSeenW x = true := h x (by simp)
    have hrest : ∀ y ∈ pre, isSeenW y = true := fun y hy => h y (by simp [hy])
    simp only [List.cons_append, List.findIdx?_cons, hx, Bool.not_true,
      Bool.false_eq_true, if_false, List.findIdx?_succ, ih hrest,
      Option.map_map]
    generalize List.findIdx? (fun w => !isSeenW w) suf = S
    cases S with
    | none => rfl
    | some v => simp [Function.comp]

theorem findIdx?_even_head {w : Nat} (l : List Nat) (hw : w % 2 = 0) :
    List.findIdx? (fun w => !isSeenW w) (w :: l) = some 0 := by
  simp [List.findIdx?_cons, isSeenW_even hw]

theorem findIdx?_convSlots {orig : List Nat} {k : Nat} (p : Nat)
    (heven : ∀ w ∈ orig, w % 2 = 0) (hk : k ≤ orig.length) :
    List.findIdx? (fun w => !isSeenW w) (convSlots orig k p)
      = if k < orig.length then some k else none := by
  rcases Nat.eq_zero_or_pos k with rfl | hpos
  · rw [convSlots_zero]
    cases orig with
    | nil => simp
    | cons w rest =>
      rw [findIdx?_even_head rest (heven w (by simp))]
      simp
  · rw [convSlots_pos orig p hpos]
    have hall : ∀ x ∈ seenW p :: (orig.take (k - 1)).map seenW,
        isSeenW x = true := by
      intro x hx
      rcases List.mem_cons.1 hx with rfl | hx'
      · exact isSeenW_seenW p
      · obtain ⟨w, _, rfl⟩ := List.mem_map.1 hx'
        exact isSeenW_seenW w
    have hlen : (seenW p :: (orig.take (k - 1)).map seenW).length = k := by
      simp
      omega
    rw [show seenW p :: (orig.take (k - 1)).map seenW ++ orig.drop k
        = (seenW p :: (orig.take (k - 1)).map seenW) ++ orig.drop k from rfl,
      findIdx?_all_seen hall, hlen]
    by_cases hlt : k < orig.length
    · have hne : orig.drop k ≠ [] := by
        intro hemp
        have := List.drop_eq_nil_iff.1 hemp
        omega
      rcases hD : orig.drop k with _ | ⟨w, rest⟩
      · exact absurd hD hne
      · have hw : w ∈ orig := by
          have : w ∈ orig.drop k := by rw [hD]; simp
          exact List.mem_of_mem_drop this
        rw [findIdx?_even_head rest (heven w hw)]
        simp [hlt]
    · have : orig.drop k = [] := by
        rw [List.drop_eq_nil_iff]
        omega
      rw [this]
      simp [hlt]

theorem convSlots_getD {k : Nat} {orig : List Nat} (p : Nat)
    (hk : k < orig.length) :
    (convSlots orig k p).getD k 0 = orig.getD k 0 := by
  rcases Nat.eq_zero_or_pos k with rfl | hpos
  · rw [convSlots_zero]
  · rw [convSlots_pos orig p hpos]
    have hlen : ((orig.take (k - 1)).map seenW).length = k - 1 := by
      simp
      omega
    rw [List.getD_eq_getElem?_getD, List.getD_eq_getElem?_getD]
    have h1 : (seenW p :: ((orig.take (k - 1)).map seenW ++ orig.drop k))[k]?
        = ((orig.take (k - 1)).map seenW ++ orig.drop k)[k - 1]? := by
      cases k with
      | zero => omega
      | succ k => simp
    rw [List.cons_append, h1, List.getElem?_append]
    rw [hlen]
    have : ¬ (k - 1 < k - 1) := by omega
    rw [if_neg this]
    have : k - 1 - (k - 1) = 0 := by omega
    rw [this, List.getElem?_drop]
    have : k + 0 = k := by omega
    rw [this]

theorem convSlots_head {k : Nat} (orig : List Nat) (p : Nat) (hk : 1 ≤ k) :
    (convSlots orig k p).getD 0 0 = seenW p := by
  rw [convSlots_pos orig p hk]
  rfl

theorem convSlots_set_zero {orig : List Nat} (p : Nat) (h0 : 0 < orig.length) :
    orig.set 0 (seenW p) = convSlots orig 1 p := by
  cases orig with
  | nil => simp at h0
  | cons w rest =>
    rw [convSlots_pos _ p (by omega)]
    simp [List.set]

theorem convSlots_set_succ {k : Nat} {orig : List Nat} (p : Nat)
    (hk : 1 ≤ k) (hlt : k < orig.length) :
    (convSlots orig k p).set k (seenW (orig.getD (k - 1) 0))
      = convSlots orig (k + 1) p := by
  rw [convSlots_pos orig p hk, convSlots_pos orig p (by omega : 1 ≤ k + 1)]
  set A := (orig.take (k - 1)).map seenW with hA
  set D := orig.drop k with hD
  have hlenA : A.length = k - 1 := by
    rw [hA]
    simp
    omega
  rw [List.cons_append, List.set_eq_take_append_cons_drop]
  have hlen : k < (seenW p :: (A ++ D)).length := by
    rw [hD]
    simp [hlenA]
    omega
  rw [if_pos hlen]
  have htake : (seenW p :: (A ++ D)).take k = seenW p :: A := by
    rcases Nat.exists_eq_add_of_le hk with ⟨m, rfl⟩
    rw [Nat.add_comm 1 m, List.take_succ_cons]
    congr 1
    rw [show m = A.length from by omega]
    exact List.take_left A D
  have h1 : (A ++ D).drop k = D.drop 1 := by
    rw [show k = A.length + 1 from by omega, List.drop_append]
  have hdrop : (seenW p :: (A ++ D)).drop (k + 1) = orig.drop (k + 1) := by
    rw [List.drop_succ_cons, h1, hD, List.drop_drop]
  rw [htake, hdrop]
  have hk1 : k - 1 < orig.length := by omega
  have htk : orig.take k = orig.take (k - 1) ++ [orig[k - 1]] := by
    conv_lhs => rw [show k = (k - 1) + 1 from by omega]
    rw [List.take_succ, List.getElem?_eq_getElem hk1, Option.toList_some]
  have hslot : A ++ [seenW (orig.getD (k - 1) 0)] = (orig.take k).map seenW := by
    rw [htk, List.map_append, List.getD_eq_getElem orig 0 hk1, hA]
    rfl
  calc seenW p :: A ++ seenW (orig.getD (k - 1) 0) :: orig.drop (k + 1)
      = seenW p :: ((A ++ [seenW (orig.getD (k - 1) 0)]) ++ orig.drop (k + 1)) := by
        simp
    _ = seenW p :: (orig.take k).map seenW ++ orig.drop (k + 1) := by
        rw [hslot, List.cons_append]

theorem shiftSlots_conv {k : Nat} {orig : List Nat} (p : Nat)
    (hk : 1 ≤ k) (hle : k ≤ orig.length)
    (heven : ∀ w ∈ orig, w % 2 = 0) :
    shiftSlots (convSlots orig k p) k (orig.getD (k - 1) 0) = orig := by
  rw [convSlots_pos orig p hk]
  set A := (orig.take (k - 1)).map seenW with hA
  set D := orig.drop k with hD
  have hlenA : A.length = k - 1 := by
    rw [hA]
    simp
    omega
  rw [shiftSlots]
  have hdrop1 : (seenW p :: (A ++ D) : List Nat).drop 1 = A ++ D := rfl
  have htakeA : (A ++ D).take (k - 1) = A := by
    rw [show k - 1 = A.length from by omega]
    exact List.take_left A D
  have hmapA : A.map unseenW = orig.take (k - 1) := by
    rw [hA]
    exact map_unseen_seen (fun w hw => heven w (List.mem_of_mem_take hw))
  have hdropk : (seenW p :: (A ++ D) : List Nat).drop k = D := by
    rcases Nat.exists_eq_add_of_le hk with ⟨m, rfl⟩
    rw [Nat.add_comm 1 m, List.drop_succ_cons,
      show m = A.length + 0 from by omega, List.drop_append, List.drop_zero]
  have hprev : unseenW (orig.getD (k - 1) 0) = orig.getD (k - 1) 0 := by
    have hk1 : k - 1 < orig.length := by omega
    rw [List.getD_eq_getElem orig 0 hk1]
    exact unseenW_even (heven _ (List.getElem_mem hk1))
  rw [List.cons_append, hdrop1, htakeA, hmapA, hdropk, hprev, hD]
  have hk1 : k - 1 < orig.length := by omega
  have htk : orig.take k = orig.take (k - 1) ++ [orig[k - 1]] := by
    conv_lhs => rw [show k = (k - 1) + 1 from by omega]
    rw [List.take_succ, List.getElem?_eq_getElem hk1, Option.toList_some]
  calc orig.take (k - 1) ++ [orig.getD (k - 1) 0] ++ orig.drop k
      = orig.take (k - 1) ++ [orig[k - 1]] ++ orig.drop k := by
        rw [List.getD_eq_getElem orig 0 hk1]
    _ = orig.take k ++ orig.drop k := by rw [htk]
    _ = orig := List.take_append_drop k orig

end CSD

namespace CSD

theorem stack_at {α : Type} {stack : List (Frame α)} {x : Nat} (h0 : Heap α)
    (hx : x ∉ stackAddrs stack) :
    applyEntries h0 (stackEntries stack) x = h0 x := by
  apply applyEntries_not_mem
  rw [stackEntries_fst]
  exact hx

theorem decode_run_heap {α : Type} (h0 : Heap α) (t0 : NTree α)
    {stack : List (Frame α)} {t : NTree α} (k : Nat)
    (hx : t.addr ∉ stackAddrs stack) :
    (decodeSt h0 t0 (.run stack t k)).h
      = (applyEntries h0 (stackEntries stack)).upd t.addr
          ⟨t.val, convSlots t.children.origWords k (headAddr stack)⟩ := by
  simp only [decodeSt]
  rw [applyEntries_cons_comm (by rw [stackEntries_fst]; exact hx)]

theorem step_sim {α : Type} {h0 : Heap α} {N RA : Nat} {t0 : NTree α}
    (hwf : Wf h0 N t0) :
    ∀ {Z : ZState α}, ZOk t0 Z →
    stepN N RA (decodeSt h0 t0 Z) =
      (match zipStep RA Z with
       | none => .finished
       | some (Z', y) => .cont (decodeSt h0 t0 Z') y) := by
  intro Z hZ
  cases Z with
  | done =>
    show stepN N RA ⟨h0, t0.addr, 0⟩ = _
    rw [stepN]
    rfl
  | run stack t k =>
    rw [ZOk] at hZ
    obtain ⟨hsp, hk⟩ := hZ
    obtain ⟨hrept, hreps⟩ := spine_rep hwf.1 hsp
    have hflen : t.children.flen = N := repT_flen hrept
    have hkN : k ≤ N := hflen ▸ hk
    have heven : ∀ w ∈ t.children.origWords, w % 2 = 0 :=
      repF_words_even (repT_children hrept)
    have hlen : t.children.origWords.length = N :=
      (origWords_length t.children).trans hflen
    have haddrne : t.addr ≠ 0 := repT_addr_ne hrept
    have hnotin : t.addr ∉ stackAddrs stack := spine_focus_not_stack hsp hwf.2
    have hpeven : headAddr stack % 2 = 0 := headAddr_even hreps
    set orig := t.children.origWords with horig
    set p := headAddr stack with hp
    set SE := stackEntries stack with hSE
    have hbase : ∀ x, x ∉ stackAddrs stack → applyEntries h0 SE x = h0 x :=
      fun x hx => stack_at h0 hx
    have hheap : (decodeSt h0 t0 (.run stack t k)).h
        = (applyEntries h0 SE).upd t.addr ⟨t.val, convSlots orig k p⟩ :=
      decode_run_heap h0 t0 k hnotin
    have hcur : (decodeSt h0 t0 (.run stack t k)).cur = t.addr := rfl
    have hprev : (decodeSt h0 t0 (.run stack t k)).prev
        = if k = 0 then p else t.children.childWord (k - 1) := rfl
    have hlook : (decodeSt h0 t0 (.run stack t k)).h t.addr
        = some ⟨t.val, convSlots orig k p⟩ := by
      rw [hheap]; exact Heap.upd_same _ _ _
    have hfu : (convSlots orig k p).findIdx? (fun w => !isSeenW w)
        = if k < N then some k else none := by
      rw [findIdx?_convSlots p heven (by omega)]
      rw [hlen]
    have hstate : decodeSt h0 t0 (.run stack t k)
        = St.mk ((applyEntries h0 SE).upd t.addr ⟨t.val, convSlots orig k p⟩)
            (if k = 0 then p else t.children.childWord (k - 1)) t.addr := by
      simp only [decodeSt]
      rw [applyEntries_cons_comm (by rw [stackEntries_fst]; exact hnotin)]
    rw [hstate, stepN]
    simp only [haddrne, if_false, Heap.upd_same]
    by_cases hklt : k < N
    · -- descend case: the machine sees the first unseen slot at index k
      have hfuk : ((convSlots orig k p).findIdx? (fun w => !isSeenW w)).getD N = k := by
        rw [hfu, if_pos hklt]
        rfl
      simp only [hfuk, if_pos hklt]
      have hgetk : (convSlots orig k p).getD k 0 = t.children.childWord k := by
        rw [convSlots_getD p (by omega)]
        rfl
      rcases hg : t.children.fget k with _ | (_ | c)
      · -- out of range: impossible since k < flen
        rw [fget_eq_none_iff] at hg
        omega
      · -- null slot: the machine skips it
        have hcw : t.children.childWord k = 0 := childWord_null hg
        have hchild : asUntagged ((convSlots orig k p).getD k 0) = 0 := by
          rw [hgetk, hcw]
          rfl
        simp only [hchild, if_pos rfl, zipStep, hg]
        -- slot update
        have hset : (convSlots orig k p).set k
            (seenW (if k = 0 then p else t.children.childWord (k - 1)))
            = convSlots orig (k + 1) p := by
          by_cases hk0 : k = 0
          · subst hk0
            rw [convSlots_zero]
            have hif : (if (0 : Nat) = 0 then p else t.children.childWord (0 - 1)) = p := by
              simp
            rw [hif, convSlots_set_zero p (by omega)]
          · rw [if_neg hk0]
            exact convSlots_set_succ p (by omega) (by omega)
        rw [hset]
        have hZ' : decodeSt h0 t0 (.run stack t (k + 1))
            = St.mk ((applyEntries h0 SE).upd t.addr ⟨t.val, convSlots orig (k + 1) p⟩)
                (t.children.childWord k) t.addr := by
          simp only [decodeSt]
          rw [applyEntries_cons_comm (by rw [stackEntries_fst]; exact hnotin)]
          simp
        rw [hZ', hcw]
        simp only [if_true, Heap.upd_upd]
      · -- child slot: the machine descends
        have hrepc : repT h0 N c := repF_fget_child (repT_children hrept) hg
        have hcw : t.children.childWord k = c.addr := childWord_child hg
        have hchild : asUntagged ((convSlots orig k p).getD k 0) = c.addr := by
          rw [hgetk, hcw, asUntagged_even (repT_addr_even hrepc)]
        have hcne : c.addr ≠ 0 := repT_addr_ne hrepc
        simp only [hchild, if_neg hcne, zipStep, hg]
        have hset : (convSlots orig k p).set k
            (seenW (if k = 0 then p else t.children.childWord (k - 1)))
            = convSlots orig (k + 1) p := by
          by_cases hk0 : k = 0
          · subst hk0
            rw [convSlots_zero]
            have hif : (if (0 : Nat) = 0 then p else t.children.childWord (0 - 1)) = p := by
              simp
            rw [hif, convSlots_set_zero p (by omega)]
          · rw [if_neg hk0]
            exact convSlots_set_succ p (by omega) (by omega)
        rw [hset]
        -- membership facts for the child address
        obtain ⟨hnd2, _⟩ := spine_nodup_sub hsp hwf.2
        rw [List.nodup_append] at hnd2
        have hcmem : c.addr ∈ t.children.faddrs :=
          (fget_sublist hg).subset (addr_mem_taddrs c)
        have hcta : c.addr ∈ t.taddrs := by
          rw [taddrs_eq t]
          simp [hcmem]
        have hcstack : c.addr ∉ stackAddrs stack := fun hmem => hnd2.2.2 hmem hcta
        have hcnet : c.addr ≠ t.addr := by
          intro heq
          have := hnd2.2.1
          rw [taddrs_eq t] at this
          exact (List.nodup_cons.1 this).1 (heq ▸ hcmem)
        have hZ' : decodeSt h0 t0 (.run (⟨t, k + 1⟩ :: stack) c 0)
            = St.mk (((applyEntries h0 SE).upd t.addr ⟨t.val, convSlots orig (k + 1) p⟩).upd
                  c.addr ⟨c.val, c.children.origWords⟩)
                t.addr c.addr := by
          show St.mk (applyEntries h0 _) _ _ = _
          simp only [stackEntries, headAddr, decodeSt]
          rw [applyEntries_cons_comm (by
            rw [List.map_cons, stackEntries_fst]
            simp only [List.mem_cons]
            push_neg
            exact ⟨hcnet, hcstack⟩)]
          rw [applyEntries_cons_comm (by rw [stackEntries_fst]; exact hnotin)]
          rw [convSlots_zero]
          rfl
        rw [hZ']
        have hnoop : ((applyEntries h0 SE).upd t.addr ⟨t.val, convSlots orig (k + 1) p⟩).upd
              c.addr ⟨c.val, c.children.origWords⟩
            = (applyEntries h0 SE).upd t.addr ⟨t.val, convSlots orig (k + 1) p⟩ := by
          apply Heap.upd_self_noop
          rw [Heap.upd_other _ _ _ hcnet, hbase c.addr hcstack]
          exact repT_lookup hrepc
        rw [hnoop, Heap.upd_upd]
    · -- ascend case: every slot is converted, k = N
      have hkeq : k = N := by omega
      have hfuN : ((convSlots orig k p).findIdx? (fun w => !isSeenW w)).getD N = N := by
        rw [hfu, if_neg hklt]
        rfl
      have hgN : t.children.fget k = none := by
        rw [fget_eq_none_iff]
        omega
      simp only [hfuN]
      have hfinal : (match zipStep RA (ZState.run stack t k) with
            | none => (StepRes.finished : StepRes α)
            | some (Z', y) => .cont (decodeSt h0 t0 Z') y)
          = .cont ⟨applyEntries h0 SE, t.addr, p⟩
              (if N = RA then some t.addr else none) := by
        cases stack with
        | nil =>
          rw [spineOk] at hsp
          subst hsp
          simp only [zipStep, hgN, hflen]
          rfl
        | cons f rest =>
          rw [spineOk] at hsp
          obtain ⟨hsp', hk1, hget⟩ := hsp
          simp only [zipStep, hgN, hflen, decodeSt]
          have hprev' : (if f.k = 0 then headAddr rest
              else f.t.children.childWord (f.k - 1)) = t.addr := by
            rw [if_neg (by omega), childWord_child hget]
          rw [hprev']
          rfl
      rw [hfinal]
      have hlookup0 : applyEntries h0 SE t.addr = some ⟨t.val, orig⟩ := by
        rw [hbase t.addr hnotin]
        exact repT_lookup hrept
      by_cases hN0 : N = 0
      · subst hkeq
        rw [if_neg hklt, if_pos (by omega : k = 0)]
        have hif : (if k = 0 then p else t.children.childWord (k - 1)) = p := by
          rw [if_pos (by omega)]
        rw [hif]
        have hheap0 : (applyEntries h0 SE).upd t.addr ⟨t.val, convSlots orig k p⟩
            = applyEntries h0 SE := by
          apply Heap.upd_self_noop
          rw [hlookup0]
          rw [show convSlots orig k p = orig from by rw [hN0]; exact convSlots_zero orig p]
        rw [hheap0, hN0]
      · subst hkeq
        rw [if_neg hklt, if_neg hN0]
        have hif : (if k = 0 then p else t.children.childWord (k - 1))
            = orig.getD (k - 1) 0 := by
          rw [if_neg hN0]
          rfl
        rw [hif]
        have hshift : shiftSlots (convSlots orig k p) k (orig.getD (k - 1) 0) = orig :=
          shiftSlots_conv p (by omega) (by omega) heven
        rw [hshift]
        have hhead : (convSlots orig k p).getD 0 0 = seenW p :=
          convSlots_head orig p (by omega)
        rw [hhead, asUntagged_seenW hpeven, Heap.upd_upd]
        rw [Heap.upd_self_noop hlookup0]

end CSD

namespace CSD

/-! ## Validity preservation and driver simulations -/

theorem zip_preserve {α : Type} {t0 : NTree α} {RA : Nat} {Z Z' : ZState α}
    {y : Option Nat} (hZ : ZOk t0 Z) (hstep : zipStep RA Z = some (Z', y)) :
    ZOk t0 Z' := by
  cases Z with
  | done => simp [zipStep] at hstep
  | run stack t k =>
    rw [ZOk] at hZ
    obtain ⟨hsp, hk⟩ := hZ
    rcases hg : t.children.fget k with _ | (_ | c)
    · simp only [zipStep, hg] at hstep
      cases stack with
      | nil =>
        simp only [Option.some.injEq, Prod.mk.injEq] at hstep
        obtain ⟨rfl, rfl⟩ := hstep
        trivial
      | cons f rest =>
        simp only [Option.some.injEq, Prod.mk.injEq] at hstep
        obtain ⟨rfl, rfl⟩ := hstep
        rw [spineOk] at hsp
        rw [ZOk]
        refine ⟨hsp.1, ?_⟩
        have hlt : f.k - 1 < f.t.children.flen := by
          rw [← fget_isSome_iff]
          simp [hsp.2.2]
        omega
    · simp only [zipStep, hg, Option.some.injEq, Prod.mk.injEq] at hstep
      obtain ⟨rfl, rfl⟩ := hstep
      rw [ZOk]
      have hlt : k < t.children.flen := by
        rw [← fget_isSome_iff]
        simp [hg]
      exact ⟨hsp, by omega⟩
    · simp only [zipStep, hg, Option.some.injEq, Prod.mk.injEq] at hstep
      obtain ⟨rfl, rfl⟩ := hstep
      rw [ZOk]
      constructor
      · rw [spineOk]
        exact ⟨hsp, Nat.succ_le_succ (Nat.zero_le k), by simpa using hg⟩
      · exact Nat.zero_le _

theorem ziterate_ok {α : Type} {t0 : NTree α} {RA : Nat} (fuel : Nat) :
    ∀ {Z : ZState α}, ZOk t0 Z → ZOk t0 (ziterate fuel RA Z).1 := by
  induction fuel with
  | zero => intro Z hZ; exact hZ
  | succ fuel ih =>
    intro Z hZ
    rw [ziterate]
    rcases hzs : zipStep RA Z with _ | ⟨Z', y⟩
    · exact hZ
    · exact ih (zip_preserve hZ hzs)

theorem ztake_ok {α : Type} {t0 : NTree α} {RA : Nat} (fuel : Nat) :
    ∀ (k : Nat) {Z : ZState α}, ZOk t0 Z → ZOk t0 (ztake fuel k RA Z).1 := by
  induction fuel with
  | zero => intro k Z hZ; exact hZ
  | succ fuel ih =>
    intro k Z hZ
    rw [ztake]
    by_cases hk : k = 0
    · subst hk
      simpa using hZ
    · rw [if_neg hk]
      rcases hzs : zipStep RA Z with _ | ⟨Z', y⟩
      · exact hZ
      · have hZ' := zip_preserve hZ hzs
        cases y with
        | none => exact ih k hZ'
        | some a => exact ih (k - 1) hZ'

theorem run_sim {α : Type} {h0 : Heap α} {N RA : Nat} {t0 : NTree α}
    (hwf : Wf h0 N t0) (fuel : Nat) :
    ∀ {Z : ZState α}, ZOk t0 Z →
    microRun fuel N RA (decodeSt h0 t0 Z)
      = (decodeSt h0 t0 (ziterate fuel RA Z).1, (ziterate fuel RA Z).2) := by
  induction fuel with
  | zero => intro Z hZ; rfl
  | succ fuel ih =>
    intro Z hZ
    rw [microRun, ziterate, step_sim hwf hZ]
    rcases hzs : zipStep RA Z with _ | ⟨Z', y⟩
    · rfl
    · simp only [ih (zip_preserve hZ hzs)]

theorem take_sim {α : Type} {h0 : Heap α} {N RA : Nat} {t0 : NTree α}
    (hwf : Wf h0 N t0) (fuel : Nat) :
    ∀ (k : Nat) {Z : ZState α}, ZOk t0 Z →
    microTake fuel k N RA (decodeSt h0 t0 Z)
      = (decodeSt h0 t0 (ztake fuel k RA Z).1, (ztake fuel k RA Z).2) := by
  induction fuel with
  | zero => intro k Z hZ; rfl
  | succ fuel ih =>
    intro k Z hZ
    rw [microTake, ztake]
    by_cases hk : k = 0
    · subst hk
      simp
    · rw [if_neg hk, if_neg hk, step_sim hwf hZ]
      rcases hzs : zipStep RA Z with _ | ⟨Z', y⟩
      · rfl
      · have hZ' := zip_preserve hZ hzs
        cases y with
        | none => exact ih k hZ'
        | some a => simp only [ih (k - 1) hZ']

theorem reach_sim {α : Type} {h0 : Heap α} {N RA : Nat} {t0 : NTree α}
    (hwf : Wf h0 N t0) (j : Nat) :
    ∀ {Z : ZState α}, ZOk t0 Z →
    iterN j N RA (decodeSt h0 t0 Z)
      = (zreach j RA Z).map (decodeSt h0 t0)
      ∧ ∀ Z', zreach j RA Z = some Z' → ZOk t0 Z' := by
  induction j with
  | zero =>
    intro Z hZ
    refine ⟨rfl, ?_⟩
    intro Z' hZ'
    rw [zreach] at hZ'
    cases hZ'
    exact hZ
  | succ j ih =>
    intro Z hZ
    rw [iterN, zreach, step_sim hwf hZ]
    rcases hzs : zipStep RA Z with _ | ⟨Z', y⟩
    · exact ⟨rfl, by intro Z' h; cases h⟩
    · exact ih (zip_preserve hZ hzs)

/-! ## Zipper driver algebra -/

theorem ziterate_done {α : Type} (fuel RA : Nat) :
    ziterate fuel RA (ZState.done : ZState α) = (.done, []) := by
  cases fuel with
  | zero => rfl
  | succ fuel => rw [ziterate]; rfl

theorem ziterate_stop {α : Type} {RA : Nat} {Z : ZState α}
    (h : zipStep RA Z = none) (b : Nat) : ziterate b RA Z = (Z, []) := by
  cases b with
  | zero => rfl
  | succ b => rw [ziterate, h]

theorem ziterate_add {α : Type} (RA a b : Nat) :
    ∀ Z : ZState α,
    ziterate (a + b) RA Z
      = ((ziterate b RA (ziterate a RA Z).1).1,
          (ziterate a RA Z).2 ++ (ziterate b RA (ziterate a RA Z).1).2) := by
  induction a with
  | zero => intro Z; simp [ziterate]
  | succ a ih =>
    intro Z
    rcases hzs : zipStep RA Z with _ | ⟨Z', y⟩
    · rw [ziterate_stop hzs (a + 1 + b), ziterate_stop hzs (a + 1),
        ziterate_stop hzs b]
      simp [ziterate_stop hzs]
    · have hstep1 : ∀ n, ziterate (n + 1) RA Z
          = ((ziterate n RA Z').1, y.toList ++ (ziterate n RA Z').2) := by
        intro n
        rw [ziterate, hzs]
      rw [show a + 1 + b = (a + b) + 1 from by omega, hstep1 (a + b),
        hstep1 a, ih Z']
      simp

end CSD

namespace CSD

/-! ## Segment behaviour of the abstract machine -/

@[simp]
theorem children_node {α : Type} (a : Nat) (v : α) (cs : NForest α) :
    (NTree.node a v cs).children = cs := rfl

@[simp]
theorem addr_node {α : Type} (a : Nat) (v : α) (cs : NForest α) :
    (NTree.node a v cs).addr = a := rfl

@[simp]
theorem val_node {α : Type} (a : Nat) (v : α) (cs : NForest α) :
    (NTree.node a v cs).val = v := rfl

/-- State the traversal returns to when the focused subtree is finished. -/
def popTo {α : Type} : List (Frame α) → ZState α
  | [] => .done
  | f :: rest => .run rest f.t f.k

theorem flen_fdrop {α : Type} (cs : NForest α) :
    ∀ k, (cs.fdrop k).flen = cs.flen - k := by
  induction cs using NForest.recSimple with
  | hnil =>
    intro k
    cases k <;> simp [NForest.fdrop, NForest.flen]
  | hsnull rest ih =>
    intro k
    cases k with
    | zero => simp [NForest.fdrop]
    | succ k => simp [NForest.fdrop, NForest.flen, ih k]
  | hscons c rest ih =>
    intro k
    cases k with
    | zero => simp [NForest.fdrop]
    | succ k => simp [NForest.fdrop, NForest.flen, ih k]

theorem fdrop_snull {α : Type} {cs rest : NForest α} :
    ∀ {k : Nat}, cs.fdrop k = .snull rest →
    cs.fget k = some none ∧ cs.fdrop (k + 1) = rest := by
  induction cs using NForest.recSimple with
  | hnil =>
    intro k h
    cases k <;> simp [NForest.fdrop] at h
  | hsnull rest' ih =>
    intro k h
    cases k with
    | zero =>
      rw [NForest.fdrop] at h
      cases h
      exact ⟨rfl, rfl⟩
    | succ k =>
      rw [NForest.fdrop] at h
      exact ⟨(ih h).1, (ih h).2⟩
  | hscons c rest' ih =>
    intro k h
    cases k with
    | zero => rw [NForest.fdrop] at h; cases h
    | succ k =>
      rw [NForest.fdrop] at h
      exact ⟨(ih h).1, (ih h).2⟩

theorem fdrop_scons {α : Type} {cs rest : NForest α} {c : NTree α} :
    ∀ {k : Nat}, cs.fdrop k = .scons c rest →
    cs.fget k = some (some c) ∧ cs.fdrop (k + 1) = rest := by
  induction cs using NForest.recSimple with
  | hnil =>
    intro k h
    cases k <;> simp [NForest.fdrop] at h
  | hsnull rest' ih =>
    intro k h
    cases k with
    | zero => rw [NForest.fdrop] at h; cases h
    | succ k =>
      rw [NForest.fdrop] at h
      exact ⟨(ih h).1, (ih h).2⟩
  | hscons c' rest' ih =>
    intro k h
    cases k with
    | zero =>
      rw [NForest.fdrop] at h
      cases h
      exact ⟨rfl, rfl⟩
    | succ k =>
      rw [NForest.fdrop] at h
      exact ⟨(ih h).1, (ih h).2⟩

end CSD

namespace CSD

theorem ziterate_peel {α : Type} {RA n : Nat} {Z Z' : ZState α} {y : Option Nat}
    (h : zipStep RA Z = some (Z', y)) :
    ziterate (n + 1) RA Z
      = ((ziterate n RA Z').1, y.toList ++ (ziterate n RA Z').2) := by
  rw [ziterate, h]

theorem toList_if_yield (a : Nat) (c : Prop) [Decidable c] :
    (if c then some a else none).toList = if c then [a] else [] := by
  by_cases h : c <;> simp [h]

mutual
theorem zsegT {α : Type} (RA : Nat) :
    ∀ (t : NTree α) (stack : List (Frame α)),
    ziterate t.tsteps RA (.run stack t 0) = (popTo stack, t.tvisits RA)
  | .node a v cs, stack => by
    rw [NTree.tsteps, NTree.tvisits]
    rw [ziterate_add RA cs.fsteps 1]
    rw [zsegF RA cs a v cs stack 0 rfl (Nat.zero_le _)]
    have hg : cs.fget cs.flen = none := by
      rw [fget_eq_none_iff]
    have hzs : zipStep RA (ZState.run stack (NTree.node a v cs) cs.flen)
        = some (popTo stack, if cs.flen = RA then some a else none) := by
      cases stack with
      | nil => simp [zipStep, hg, popTo]
      | cons f rest => simp [zipStep, hg, popTo]
    have hone : ziterate 1 RA (ZState.run stack (NTree.node a v cs) cs.flen)
        = (popTo stack, if cs.flen = RA then [a] else []) := by
      rw [show (1 : Nat) = 0 + 1 from rfl, ziterate_peel hzs, toList_if_yield]
      simp [ziterate]
    rw [hone]
theorem zsegF {α : Type} (RA : Nat) :
    ∀ (fs : NForest α) (a : Nat) (v : α) (cs : NForest α)
      (stack : List (Frame α)) (k : Nat),
    cs.fdrop k = fs → k ≤ cs.flen →
    ziterate fs.fsteps RA (.run stack (.node a v cs) k)
      = (.run stack (.node a v cs) cs.flen, fs.fvisits RA a k)
  | .nil, a, v, cs, stack, k => by
    intro hfd hk
    have hlen := flen_fdrop cs k
    rw [hfd] at hlen
    rw [NForest.flen] at hlen
    have hkeq : k = cs.flen := by omega
    subst hkeq
    rw [NForest.fsteps, NForest.fvisits]
    rfl
  | .snull rest, a, v, cs, stack, k => by
    intro hfd hk
    obtain ⟨hg, hd⟩ := fdrop_snull hfd
    have hlen := flen_fdrop cs k
    rw [hfd, NForest.flen] at hlen
    have hzs : zipStep RA (ZState.run stack (NTree.node a v cs) k)
        = some (.run stack (.node a v cs) (k + 1), if k = RA then some a else none) := by
      simp [zipStep, hg]
    rw [NForest.fsteps, Nat.add_comm 1 rest.fsteps, ziterate_peel hzs]
    rw [zsegF RA rest a v cs stack (k + 1) hd (by omega)]
    rw [NForest.fvisits, toList_if_yield]
  | .scons c rest, a, v, cs, stack, k => by
    intro hfd hk
    obtain ⟨hg, hd⟩ := fdrop_scons hfd
    have hlen := flen_fdrop cs k
    rw [hfd, NForest.flen] at hlen
    have hzs : zipStep RA (ZState.run stack (NTree.node a v cs) k)
        = some (.run (⟨NTree.node a v cs, k + 1⟩ :: stack) c 0,
            if k = RA then some a else none) := by
      simp [zipStep, hg]
    rw [NForest.fsteps, show 1 + c.tsteps + rest.fsteps
        = (c.tsteps + rest.fsteps) + 1 from by omega, ziterate_peel hzs]
    rw [ziterate_add RA c.tsteps rest.fsteps]
    rw [zsegT RA c (⟨NTree.node a v cs, k + 1⟩ :: stack)]
    rw [show popTo (⟨NTree.node a v cs, k + 1⟩ :: stack)
        = .run stack (.node a v cs) (k + 1) from rfl]
    rw [zsegF RA rest a v cs stack (k + 1) hd (by omega)]
    rw [NForest.fvisits, toList_if_yield]
    simp
end

theorem ziterate_full {α : Type} (RA : Nat) (t0 : NTree α) {fuel : Nat}
    (hf : t0.tsteps ≤ fuel) :
    ziterate fuel RA (.run [] t0 0) = (.done, t0.tvisits RA) := by
  obtain ⟨m, rfl⟩ := Nat.exists_eq_add_of_le hf
  rw [ziterate_add RA t0.tsteps m, zsegT RA t0 []]
  rw [show popTo ([] : List (Frame α)) = .done from rfl, ziterate_done]
  simp

end CSD

namespace CSD

/-! ## Visit sequences -/

mutual
theorem preA_eq_taddrs {α : Type} : ∀ t : NTree α, t.preA = t.taddrs
  | .node a v cs => by
    rw [NTree.preA, taddrs_node, fpreA_eq_faddrs cs]
theorem fpreA_eq_faddrs {α : Type} : ∀ cs : NForest α, cs.fpreA = cs.faddrs
  | .nil => rfl
  | .snull rest => by rw [NForest.fpreA, NForest.faddrs, fpreA_eq_faddrs rest]
  | .scons c rest => by
    rw [NForest.fpreA, NForest.faddrs, fpreA_eq_faddrs rest, preA_eq_taddrs c]
end

mutual
theorem tvisits_zero {α : Type} : ∀ t : NTree α, t.tvisits 0 = t.preA
  | .node a v cs => by
    rw [NTree.tvisits, NTree.preA]
    cases cs with
    | nil => rfl
    | snull rest =>
      rw [show (NForest.snull rest).flen = rest.flen + 1 from rfl,
        if_neg (by omega), NForest.fvisits, NForest.fpreA,
        fvisits_zero_pos rest a (0 + 1) (by omega)]
      simp
    | scons c rest =>
      rw [show (NForest.scons c rest).flen = rest.flen + 1 from rfl,
        if_neg (by omega), NForest.fvisits, NForest.fpreA,
        fvisits_zero_pos rest a (0 + 1) (by omega), tvisits_zero c]
      simp
theorem fvisits_zero_pos {α : Type} :
    ∀ (cs : NForest α) (a k : Nat), 1 ≤ k → cs.fvisits 0 a k = cs.fpreA
  | .nil, a, k => by intro hk; rfl
  | .snull rest, a, k => by
    intro hk
    rw [NForest.fvisits, NForest.fpreA, if_neg (by omega),
      fvisits_zero_pos rest a (k + 1) (by omega)]
    rfl
  | .scons c rest, a, k => by
    intro hk
    rw [NForest.fvisits, NForest.fpreA, if_neg (by omega),
      fvisits_zero_pos rest a (k + 1) (by omega), tvisits_zero c]
    rfl
end

mutual
/-- Every node of the tree has exactly `N` slots. -/
def sizedT {α : Type} (N : Nat) : NTree α → Prop
  | .node _ _ cs => cs.flen = N ∧ sizedF N cs
def sizedF {α : Type} (N : Nat) : NForest α → Prop
  | .nil => True
  | .snull rest => sizedF N rest
  | .scons c rest => sizedT N c ∧ sizedF N rest
end

mutual
theorem repT_sized {α : Type} {h : Heap α} {N : Nat} :
    ∀ {t : NTree α}, repT h N t → sizedT N t
  | .node a v cs => by
    intro hrep
    rw [repT] at hrep
    rw [sizedT]
    exact ⟨hrep.2.2.2.1, repF_sized hrep.2.2.2.2⟩
theorem repF_sized {α : Type} {h : Heap α} {N : Nat} :
    ∀ {cs : NForest α}, repF h N cs → sizedF N cs
  | .nil => fun _ => trivial
  | .snull rest => by
    intro hrep
    rw [repF] at hrep
    rw [sizedF]
    exact repF_sized hrep
  | .scons c rest => by
    intro hrep
    rw [repF] at hrep
    rw [sizedF]
    exact ⟨repT_sized hrep.1, repF_sized hrep.2⟩
end

mutual
theorem tvisits_post {α : Type} {N : Nat} :
    ∀ {t : NTree α}, sizedT N t → t.tvisits N = t.postA
  | .node a v cs => by
    intro hs
    rw [sizedT] at hs
    rw [NTree.tvisits, NTree.postA, if_pos hs.1,
      fvisits_post hs.2 (by omega : 0 + cs.flen = N)]
theorem fvisits_post {α : Type} {N : Nat} :
    ∀ {cs : NForest α} {a k : Nat}, sizedF N cs → k + cs.flen = N →
    cs.fvisits N a k = cs.fpostA
  | .nil, a, k => by
    intro hs hk
    rfl
  | .snull rest, a, k => by
    intro hs hk
    rw [sizedF] at hs
    rw [NForest.flen] at hk
    rw [NForest.fvisits, NForest.fpostA, if_neg (by omega),
      fvisits_post hs (by omega)]
    rfl
  | .scons c rest, a, k => by
    intro hs hk
    rw [sizedF] at hs
    rw [NForest.flen] at hk
    rw [NForest.fvisits, NForest.fpostA, if_neg (by omega),
      fvisits_post hs.2 (by omega), tvisits_post hs.1]
    rfl
end

mutual
theorem postA_perm {α : Type} : ∀ t : NTree α, t.postA.Perm t.taddrs
  | .node a v cs => by
    rw [NTree.postA, taddrs_node]
    have h1 : (cs.fpostA ++ [a]).Perm ([a] ++ cs.fpostA) := List.perm_append_comm
    have h2 : ([a] ++ cs.fpostA).Perm (a :: cs.faddrs) := (fpostA_perm cs).cons a
    exact h1.trans h2
theorem fpostA_perm {α : Type} : ∀ cs : NForest α, cs.fpostA.Perm cs.faddrs
  | .nil => List.Perm.refl _
  | .snull rest => by
    rw [NForest.fpostA, NForest.faddrs]
    exact fpostA_perm rest
  | .scons c rest => by
    rw [NForest.fpostA, NForest.faddrs]
    exact (postA_perm c).append (fpostA_perm rest)
end

mutual
theorem preA_vals {α : Type} {h : Heap α} {N : Nat} :
    ∀ {t : NTree α}, repT h N t → t.preA.map (valAt h) = t.preV.map some
  | .node a v cs => by
    intro hrep
    have hlook := repT_lookup hrep
    rw [repT] at hrep
    rw [NTree.preA, NTree.preV, List.map_cons, List.map_cons,
      fpreA_vals hrep.2.2.2.2]
    simp only [addr_node] at hlook
    rw [valAt, hlook]
    rfl
theorem fpreA_vals {α : Type} {h : Heap α} {N : Nat} :
    ∀ {cs : NForest α}, repF h N cs → cs.fpreA.map (valAt h) = cs.fpreV.map some
  | .nil => fun _ => rfl
  | .snull rest => by
    intro hrep
    rw [repF] at hrep
    rw [NForest.fpreA, NForest.fpreV]
    exact fpreA_vals hrep
  | .scons c rest => by
    intro hrep
    rw [repF] at hrep
    rw [NForest.fpreA, NForest.fpreV, List.map_append, List.map_append,
      preA_vals hrep.1, fpreA_vals hrep.2]
end

/-! ## Subtree decomposition of the post-order sequence -/

theorem memF_fget {α : Type} {c : NTree α} {cs : NForest α} {i : Nat}
    (h : cs.fget i = some (some c)) : MemF c cs := by
  induction cs using NForest.recSimple generalizing i with
  | hnil => simp [NForest.fget] at h
  | hsnull rest ih =>
    cases i with
    | zero => simp [NForest.fget] at h
    | succ i =>
      rw [NForest.fget] at h
      exact MemF.tl_null (ih h)
  | hscons c' rest ih =>
    cases i with
    | zero =>
      rw [NForest.fget] at h
      simp only [Option.some.injEq] at h
      subst h
      exact MemF.hd _ rest
    | succ i =>
      rw [NForest.fget] at h
      exact MemF.tl_cons (ih h)

theorem memF_fpostA {α : Type} {c : NTree α} {cs : NForest α}
    (h : MemF c cs) : ∃ A B, cs.fpostA = A ++ c.postA ++ B := by
  induction h with
  | hd rest => exact ⟨[], rest.fpostA, by rw [NForest.fpostA]; simp⟩
  | tl_null hm ih =>
    obtain ⟨A, B, hAB⟩ := ih
    exact ⟨A, B, by rw [NForest.fpostA, hAB]⟩
  | tl_cons hm ih =>
    obtain ⟨A, B, hAB⟩ := ih
    rename_i c' rest
    exact ⟨c'.postA ++ A, B, by rw [NForest.fpostA, hAB]; simp⟩

theorem subT_postA {α : Type} {sub t : NTree α} (h : SubT sub t) :
    ∃ A B, t.postA = A ++ sub.postA ++ B := by
  induction h with
  | refl => exact ⟨[], [], by simp⟩
  | step a v cs hm hsub ih =>
    obtain ⟨A, B, hAB⟩ := ih
    obtain ⟨A', B', hAB'⟩ := memF_fpostA hm
    refine ⟨A' ++ A, B ++ B' ++ [a], ?_⟩
    rw [NTree.postA, hAB', hAB]
    simp

theorem memF_faddrs {α : Type} {c : NTree α} {cs : NForest α}
    (h : MemF c cs) : ∀ x ∈ c.taddrs, x ∈ cs.faddrs := by
  induction h with
  | hd rest => intro x hx; rw [NForest.faddrs]; simp [hx]
  | tl_null hm ih => intro x hx; rw [NForest.faddrs]; exact ih x hx
  | tl_cons hm ih => intro x hx; rw [NForest.faddrs]; simp [ih x hx]

theorem subT_taddrs {α : Type} {sub t : NTree α} (h : SubT sub t) :
    ∀ x ∈ sub.taddrs, x ∈ t.taddrs := by
  induction h with
  | refl => intro x hx; exact hx
  | step a v cs hm hsub ih =>
    intro x hx
    rw [taddrs_node]
    exact List.mem_cons_of_mem a (memF_faddrs hm x (ih x hx))

/-- Positional form of leaf-first reclamation inside a decomposed list. -/
theorem mem_before_last {α : Type} [DecidableEq α] {x a : α}
    {A P B : List α} (hx : x ∈ P)
    (hnd : (A ++ (P ++ [a]) ++ B).Nodup) :
    (A ++ (P ++ [a]) ++ B).indexOf x < (A ++ (P ++ [a]) ++ B).indexOf a := by
  have hndAP : (A ++ (P ++ [a])).Nodup :=
    List.Nodup.sublist (List.sublist_append_left _ B) hnd
  rw [List.nodup_append] at hndAP
  have hna : a ∉ A := fun hmem => hndAP.2.2 hmem (by simp)
  have hnp : a ∉ P := by
    have := hndAP.2.1
    rw [List.nodup_append] at this
    exact fun hmem => this.2.2 hmem (by simp)
  have hia : (A ++ (P ++ [a]) ++ B).indexOf a = A.length + P.length := by
    rw [List.append_assoc, List.indexOf_append_of_not_mem hna,
      show (P ++ [a]) ++ B = P ++ (a :: B) from by simp,
      List.indexOf_append_of_not_mem hnp, List.indexOf_cons_self]
    omega
  rw [hia]
  by_cases hxa : x ∈ A
  · rw [List.append_assoc, List.indexOf_append_of_mem hxa]
    have := (List.indexOf_lt_length (l := A)).2 hxa
    omega
  · rw [List.append_assoc, List.indexOf_append_of_not_mem hxa,
      show (P ++ [a]) ++ B = P ++ (a :: B) from by simp,
      List.indexOf_append_of_mem hx]
    have := (List.indexOf_lt_length (l := P)).2 hx
    omega

end CSD

namespace CSD

/-! ## Drop-path simulation -/

theorem drop_sim {α : Type} {h0 : Heap α} {N : Nat} {t0 : NTree α}
    (hwf : Wf h0 N t0) :
    ∀ {Z : ZState α}, ZOk t0 Z →
    dropStep N (decodeSt h0 t0 Z) = (zdropStep Z).map (decodeSt h0 t0) := by
  intro Z hZ
  cases Z with
  | done =>
    show dropStep N ⟨h0, t0.addr, 0⟩ = _
    rw [dropStep]
    rfl
  | run stack t k =>
    rw [ZOk] at hZ
    obtain ⟨hsp, hk⟩ := hZ
    obtain ⟨hrept, hreps⟩ := spine_rep hwf.1 hsp
    have hflen : t.children.flen = N := repT_flen hrept
    have heven : ∀ w ∈ t.children.origWords, w % 2 = 0 :=
      repF_words_even (repT_children hrept)
    have hlen : t.children.origWords.length = N :=
      (origWords_length t.children).trans hflen
    have haddrne : t.addr ≠ 0 := repT_addr_ne hrept
    have hnotin : t.addr ∉ stackAddrs stack := spine_focus_not_stack hsp hwf.2
    have hpeven : headAddr stack % 2 = 0 := headAddr_even hreps
    set orig := t.children.origWords with horig
    set p := headAddr stack with hp
    set SE := stackEntries stack with hSE
    have hbase : ∀ x, x ∉ stackAddrs stack → applyEntries h0 SE x = h0 x :=
      fun x hx => stack_at h0 hx
    have hlookup0 : applyEntries h0 SE t.addr = some ⟨t.val, orig⟩ := by
      rw [hbase t.addr hnotin]
      exact repT_lookup hrept
    have hstate : decodeSt h0 t0 (.run stack t k)
        = St.mk ((applyEntries h0 SE).upd t.addr ⟨t.val, convSlots orig k p⟩)
            (if k = 0 then p else t.children.childWord (k - 1)) t.addr := by
      simp only [decodeSt]
      rw [applyEntries_cons_comm (by rw [stackEntries_fst]; exact hnotin)]
    have hfu : (convSlots orig k p).findIdx? (fun w => !isSeenW w)
        = if k < N then some k else none := by
      rw [findIdx?_convSlots p heven (by omega)]
      rw [hlen]
    have hfuval : ((convSlots orig k p).findIdx? (fun w => !isSeenW w)).getD N
        = if k < N then k else N := by
      rw [hfu]
      by_cases h : k < N <;> simp [h]
    have hfinal : (zdropStep (ZState.run stack t k)).map (decodeSt h0 t0)
        = some ⟨applyEntries h0 SE, t.addr, p⟩ := by
      cases stack with
      | nil =>
        rw [spineOk] at hsp
        subst hsp
        rfl
      | cons f rest =>
        rw [spineOk] at hsp
        obtain ⟨hsp2, hk1, hget⟩ := hsp
        show some (decodeSt h0 t0 (.run rest f.t f.k)) = _
        simp only [decodeSt]
        have hprev2 : (if f.k = 0 then headAddr rest
            else f.t.children.childWord (f.k - 1)) = t.addr := by
          rw [if_neg (by omega), childWord_child hget]
        rw [hprev2]
        rfl
    rw [hstate, dropStep]
    simp only [haddrne, if_false, Heap.upd_same, hfuval]
    rw [hfinal]
    by_cases hk0 : k = 0
    · subst hk0
      have hz : (if 0 < N then 0 else N) = 0 := by
        by_cases h : 0 < N <;> simp [h]
        omega
      rw [hz, if_pos rfl]
      have hheap0 : (applyEntries h0 SE).upd t.addr ⟨t.val, convSlots orig 0 p⟩
          = applyEntries h0 SE := by
        rw [convSlots_zero]
        exact Heap.upd_self_noop hlookup0
      rw [hheap0]
      have hif : (if (0 : Nat) = 0 then p else t.children.childWord (0 - 1)) = p := by
        simp
      rw [hif]
    · have hz : (if k < N then k else N) = k := by
        by_cases h : k < N <;> simp [h]
        omega
      rw [hz, if_neg hk0]
      have hif : (if k = 0 then p else t.children.childWord (k - 1))
          = orig.getD (k - 1) 0 := by
        rw [if_neg hk0]
        rfl
      rw [hif]
      have hshift : shiftSlots (convSlots orig k p) k (orig.getD (k - 1) 0) = orig :=
        shiftSlots_conv p (by omega) (by omega) heven
      rw [hshift]
      have hhead : (convSlots orig k p).getD 0 0 = seenW p :=
        convSlots_head orig p (by omega)
      rw [hhead, asUntagged_seenW hpeven, Heap.upd_upd,
        Heap.upd_self_noop hlookup0]

theorem zdrop_ok {α : Type} {t0 : NTree α} {Z Z' : ZState α}
    (hZ : ZOk t0 Z) (h : zdropStep Z = some Z') : ZOk t0 Z' := by
  cases Z with
  | done => simp [zdropStep] at h
  | run stack t k =>
    rw [ZOk] at hZ
    obtain ⟨hsp, hk⟩ := hZ
    cases stack with
    | nil =>
      rw [zdropStep] at h
      cases h
      trivial
    | cons f rest =>
      rw [zdropStep] at h
      cases h
      rw [spineOk] at hsp
      rw [ZOk]
      refine ⟨hsp.1, ?_⟩
      have hlt : f.k - 1 < f.t.children.flen := by
        rw [← fget_isSome_iff]
        simp [hsp.2.2]
      omega

/-- Number of drop-loop iterations needed to finish from an abstract state. -/
def zdepth {α : Type} : ZState α → Nat
  | .done => 0
  | .run stack _ _ => stack.length + 1

theorem dropRun_done {α : Type} {h0 : Heap α} {N : Nat} {t0 : NTree α}
    (hwf : Wf h0 N t0) :
    ∀ (fuel : Nat) {Z : ZState α}, ZOk t0 Z → zdepth Z ≤ fuel →
    dropRun fuel N (decodeSt h0 t0 Z) = ⟨h0, t0.addr, 0⟩ := by
  intro fuel
  induction fuel with
  | zero =>
    intro Z hZ hd
    cases Z with
    | done => rfl
    | run stack t k => rw [zdepth] at hd; omega
  | succ fuel ih =>
    intro Z hZ hd
    rw [dropRun, drop_sim hwf hZ]
    cases Z with
    | done => rfl
    | run stack t k =>
      rcases hzd : zdropStep (ZState.run stack t k) with _ | Z'
      · cases stack <;> simp [zdropStep] at hzd
      · simp only [Option.map_some']
        have hZ' := zdrop_ok hZ hzd
        apply ih hZ'
        cases stack with
        | nil =>
          rw [zdropStep] at hzd
          cases hzd
          rw [zdepth]
          omega
        | cons f rest =>
          rw [zdropStep] at hzd
          cases hzd
          rw [zdepth] at hd ⊢
          simp at hd ⊢
          omega

mutual
theorem taddrs_len_le {α : Type} : ∀ t : NTree α, t.taddrs.length ≤ t.tsteps
  | .node a v cs => by
    rw [taddrs_node, NTree.tsteps]
    have := faddrs_len_le cs
    simp
    omega
theorem faddrs_len_le {α : Type} : ∀ cs : NForest α, cs.faddrs.length ≤ cs.fsteps
  | .nil => Nat.le_refl 0
  | .snull rest => by
    rw [NForest.faddrs, NForest.fsteps]
    have := faddrs_len_le rest
    omega
  | .scons c rest => by
    rw [NForest.faddrs, NForest.fsteps]
    have h1 := taddrs_len_le c
    have h2 := faddrs_len_le rest
    simp
    omega
end

theorem zdepth_le {α : Type} {t0 : NTree α} {Z : ZState α}
    (hZ : ZOk t0 Z) (hnd : t0.taddrs.Nodup) : zdepth Z ≤ t0.tsteps := by
  cases Z with
  | done => exact Nat.zero_le _
  | run stack t k =>
    rw [ZOk] at hZ
    obtain ⟨hsp, hk⟩ := hZ
    obtain ⟨hnd2, hsub⟩ := spine_nodup_sub hsp hnd
    have hsubperm : (stackAddrs stack ++ t.taddrs).Subperm t0.taddrs :=
      List.subperm_of_subset hnd2 hsub
    have hlen := hsubperm.length_le
    have htlen : 1 ≤ t.taddrs.length := by
      rw [taddrs_eq t]
      simp
    have hslen : (stackAddrs stack).length = stack.length := by
      rw [stackAddrs, List.length_map]
    have htot := taddrs_len_le t0
    rw [zdepth]
    simp at hlen
    omega

theorem ztake_yields {α : Type} (RA : Nat) :
    ∀ (fuel k : Nat) (Z : ZState α),
    (ztake fuel k RA Z).2 = (ziterate fuel RA Z).2.take k := by
  intro fuel
  induction fuel with
  | zero => intro k Z; simp [ztake, ziterate]
  | succ fuel ih =>
    intro k Z
    rw [ztake, ziterate]
    by_cases hk : k = 0
    · subst hk
      simp
    · rw [if_neg hk]
      rcases hzs : zipStep RA Z with _ | ⟨Z', y⟩
      · simp
      · cases y with
        | none => rw [ih k Z']; rfl
        | some a =>
          simp only [Option.toList_some]
          rw [ih (k - 1) Z']
          rcases Nat.exists_eq_add_of_lt (Nat.pos_of_ne_zero hk) with ⟨m, hm⟩
          rw [show k = m + 1 from by omega]
          simp

/-! ## Mid-traversal heap characterization -/

theorem applyEntries_mem {α : Type} {es : List (Nat × HNode α)} {a : Nat}
    {nd : HNode α} (hnd : (es.map Prod.fst).Nodup) (hmem : (a, nd) ∈ es) :
    ∀ h : Heap α, applyEntries h es a = some nd := by
  induction es with
  | nil => simp at hmem
  | cons e rest ih =>
    intro h
    simp only [List.map_cons, List.nodup_cons] at hnd
    rcases List.mem_cons.1 hmem with rfl | hmem'
    · rw [applyEntries, applyEntries_not_mem hnd.1, Heap.upd_same]
    · rw [applyEntries]
      exact ih hnd.2 hmem' _

/-- Every stack address stores a node whose slots are in converted form with
at least one conversion. -/
theorem stack_entry_form {α : Type} {t0 t : NTree α} :
    ∀ {stack : List (Frame α)}, spineOk t0 stack t →
    ∀ x ∈ stackAddrs stack, ∃ (v : α) (orig : List Nat) (k q : Nat),
      1 ≤ k ∧ (x, ⟨v, convSlots orig k q⟩) ∈ stackEntries stack := by
  intro stack
  induction stack generalizing t with
  | nil => intro _ x hx; simp [stackAddrs] at hx
  | cons f rest ih =>
    intro hsp x hx
    rw [spineOk] at hsp
    obtain ⟨hsp2, hk1, hget⟩ := hsp
    rw [stackAddrs, List.map_cons] at hx
    rcases List.mem_cons.1 hx with rfl | hx'
    · exact ⟨f.t.val, f.t.children.origWords, f.k, headAddr rest, hk1,
        by rw [stackEntries]; exact List.mem_cons_self _ _⟩
    · obtain ⟨v, orig, k, q, hk, hmem⟩ := ih hsp2 x (by rw [stackAddrs]; exact hx')
      exact ⟨v, orig, k, q, hk, by rw [stackEntries]; exact List.mem_cons_of_mem _ hmem⟩

/-- Descending address paths in a tree, tracking the subtree they end at. -/
inductive ChainTo {α : Type} : NTree α → List Nat → NTree α → Prop
  | refl (t : NTree α) : ChainTo t [t.addr] t
  | step {t mid c : NTree α} {rest : List Nat} :
      ChainTo t rest mid → MemF c mid.children → ChainTo t (rest ++ [c.addr]) c

/-- An address list describing a path in `t0` starting at its root (or the
empty path). -/
def IsChain {α : Type} (t0 : NTree α) (as : List Nat) : Prop :=
  as = [] ∨ ∃ e, ChainTo t0 as e

theorem spine_chainTo {α : Type} {t0 t : NTree α} :
    ∀ {stack : List (Frame α)}, spineOk t0 stack t →
    ChainTo t0 ((stackAddrs stack).reverse ++ [t.addr]) t := by
  intro stack
  induction stack generalizing t with
  | nil =>
    intro hsp
    rw [spineOk] at hsp
    subst hsp
    simpa [stackAddrs] using ChainTo.refl t
  | cons f rest ih =>
    intro hsp
    rw [spineOk] at hsp
    obtain ⟨hsp2, hk1, hget⟩ := hsp
    have hc := ChainTo.step (ih hsp2) (memF_fget hget)
    simpa [stackAddrs] using hc

/-- Addresses whose nodes carry seen tags at a decoded mid-traversal state. -/
def spineSeenAddrs {α : Type} : ZState α → List Nat
  | .done => []
  | .run stack t k => (if k = 0 then [] else [t.addr]) ++ stackAddrs stack

theorem spineSeen_chain {α : Type} {t0 : NTree α} {Z : ZState α}
    (hZ : ZOk t0 Z) : IsChain t0 (spineSeenAddrs Z).reverse := by
  cases Z with
  | done => exact Or.inl rfl
  | run stack t k =>
    rw [ZOk] at hZ
    obtain ⟨hsp, hk⟩ := hZ
    by_cases hk0 : k = 0
    · subst hk0
      rw [spineSeenAddrs]
      cases stack with
      | nil => exact Or.inl (by simp [stackAddrs])
      | cons f rest =>
        rw [spineOk] at hsp
        obtain ⟨hsp2, hk1, hget⟩ := hsp
        refine Or.inr ⟨f.t, ?_⟩
        have := spine_chainTo hsp2
        simpa [stackAddrs] using this
    · refine Or.inr ⟨t, ?_⟩
      have := spine_chainTo hsp
      simp only [spineSeenAddrs, if_neg hk0]
      simpa [stackAddrs] using this

theorem any_seen_conv {k : Nat} (orig : List Nat) (q : Nat) (hk : 1 ≤ k) :
    (convSlots orig k q).any isSeenW = true := by
  rw [convSlots_pos orig q hk]
  simp [isSeenW_seenW]

theorem any_seen_orig {α : Type} {h : Heap α} {N : Nat} {cs : NForest α}
    (hrep : repF h N cs) : cs.origWords.any isSeenW = false := by
  rw [List.any_eq_false]
  intro w hw
  simp [isSeenW_even (repF_words_even hrep w hw)]

mutual
theorem mem_taddrs_rep {α : Type} {h : Heap α} {N : Nat} :
    ∀ {t : NTree α}, repT h N t → ∀ x ∈ t.taddrs,
    ∃ (v : α) (cs : NForest α), h x = some ⟨v, cs.origWords⟩ ∧ repF h N cs
  | .node a v cs => by
    intro hrep x hx
    rw [taddrs_node] at hx
    rw [repT] at hrep
    rcases List.mem_cons.1 hx with rfl | hx'
    · exact ⟨v, cs, hrep.2.2.1, hrep.2.2.2.2⟩
    · exact mem_faddrs_rep hrep.2.2.2.2 x hx'
theorem mem_faddrs_rep {α : Type} {h : Heap α} {N : Nat} :
    ∀ {cs : NForest α}, repF h N cs → ∀ x ∈ cs.faddrs,
    ∃ (v : α) (cs' : NForest α), h x = some ⟨v, cs'.origWords⟩ ∧ repF h N cs'
  | .nil => by intro _ x hx; simp [NForest.faddrs] at hx
  | .snull rest => by
    intro hrep x hx
    rw [NForest.faddrs] at hx
    rw [repF] at hrep
    exact mem_faddrs_rep hrep x hx
  | .scons c rest => by
    intro hrep x hx
    rw [NForest.faddrs] at hx
    rw [repF] at hrep
    rcases List.mem_append.1 hx with hx' | hx'
    · exact mem_taddrs_rep hrep.1 x hx'
    · exact mem_faddrs_rep hrep.2 x hx'
end

theorem decode_off_spine {α : Type} {h0 : Heap α} {N : Nat} {t0 : NTree α}
    (hwf : Wf h0 N t0) :
    ∀ {Z : ZState α}, ZOk t0 Z → ∀ x, x ∉ spineSeenAddrs Z →
    (decodeSt h0 t0 Z).h x = h0 x := by
  intro Z hZ x hx
  cases Z with
  | done => rfl
  | run stack t k =>
    rw [ZOk] at hZ
    obtain ⟨hsp, hk⟩ := hZ
    obtain ⟨hrept, hreps⟩ := spine_rep hwf.1 hsp
    have hnotin : t.addr ∉ stackAddrs stack := spine_focus_not_stack hsp hwf.2
    rw [spineSeenAddrs] at hx
    simp only [List.mem_append] at hx
    push_neg at hx
    by_cases hk0 : k = 0
    · subst hk0
      rw [decode_run_heap h0 t0 0 hnotin, convSlots_zero]
      rw [Heap.upd_self_noop (by
        rw [stack_at h0 hnotin]
        exact repT_lookup hrept)]
      exact stack_at h0 hx.2
    · have hxt : x ≠ t.addr := by
        intro h
        exact hx.1 (by simp [h, hk0])
      rw [decode_run_heap h0 t0 k hnotin, Heap.upd_other _ _ _ hxt]
      exact stack_at h0 hx.2

theorem decode_seen_iff {α : Type} {h0 : Heap α} {N : Nat} {t0 : NTree α}
    (hwf : Wf h0 N t0) :
    ∀ {Z : ZState α}, ZOk t0 Z → ∀ x, x ∈ t0.taddrs →
    (hasSeenSlot (decodeSt h0 t0 Z).h x = true ↔ x ∈ spineSeenAddrs Z) := by
  intro Z hZ x hxt
  constructor
  · intro hseen
    by_contra hns
    have hoff := decode_off_spine hwf hZ x hns
    obtain ⟨v, cs, hlook, hrepcs⟩ := mem_taddrs_rep hwf.1 x hxt
    simp only [hasSeenSlot, hoff, hlook] at hseen
    rw [any_seen_orig hrepcs] at hseen
    exact Bool.false_ne_true hseen
  · intro hmem
    cases Z with
    | done => simp [spineSeenAddrs] at hmem
    | run stack t k =>
      rw [ZOk] at hZ
      obtain ⟨hsp, hk⟩ := hZ
      have hnotin : t.addr ∉ stackAddrs stack := spine_focus_not_stack hsp hwf.2
      rw [spineSeenAddrs] at hmem
      simp only [List.mem_append] at hmem
      rcases hmem with hmem | hmem
      · by_cases hk0 : k = 0
        · simp [hk0] at hmem
        · simp only [if_neg hk0, List.mem_singleton] at hmem
          subst hmem
          have hlook : (decodeSt h0 t0 (.run stack t k)).h t.addr
              = some ⟨t.val, convSlots t.children.origWords k (headAddr stack)⟩ := by
            rw [decode_run_heap h0 t0 k hnotin]
            exact Heap.upd_same _ _ _
          simp only [hasSeenSlot, hlook]
          exact any_seen_conv _ _ (by omega)
      · obtain ⟨v, orig, k', q, hk', hentry⟩ := stack_entry_form hsp x hmem
        have hxt2 : x ≠ t.addr := fun h => hnotin (h ▸ hmem)
        have hfsts : (((t.addr, (⟨t.val, convSlots t.children.origWords k
            (headAddr stack)⟩ : HNode α)) :: stackEntries stack).map Prod.fst).Nodup := by
          rw [List.map_cons, stackEntries_fst, List.nodup_cons]
          constructor
          · exact hnotin
          · have hnd2 := (spine_nodup_sub hsp hwf.2).1
            rw [List.nodup_append] at hnd2
            exact hnd2.1
        have hlook : (decodeSt h0 t0 (.run stack t k)).h x
            = some ⟨v, convSlots orig k' q⟩ := by
          show applyEntries h0 _ x = _
          exact applyEntries_mem hfsts (List.mem_cons_of_mem _ hentry) h0
        simp only [hasSeenSlot, hlook]
        exact any_seen_conv _ _ hk'

end CSD

namespace CSD

/-! ## Machine-level master theorems for the N-ary traversal -/

theorem ZOk_init {α : Type} (t0 : NTree α) : ZOk t0 (.run [] t0 0) :=
  ⟨rfl, Nat.zero_le _⟩

theorem decode_init {α : Type} {h0 : Heap α} {N : Nat} {t0 : NTree α}
    (hwf : Wf h0 N t0) : decodeSt h0 t0 (.run [] t0 0) = ⟨h0, 0, t0.addr⟩ := by
  simp only [decodeSt]
  rw [show stackEntries ([] : List (Frame α)) = [] from rfl]
  rw [show applyEntries h0 [(t0.addr,
      (⟨t0.val, convSlots t0.children.origWords 0 (headAddr ([] : List (Frame α)))⟩ : HNode α))]
    = h0.upd t0.addr ⟨t0.val, convSlots t0.children.origWords 0 0⟩ from rfl]
  rw [convSlots_zero, Heap.upd_self_noop (repT_lookup hwf.1)]
  simp [headAddr]

theorem microRun_full {α : Type} {h0 : Heap α} {N RA : Nat} {t0 : NTree α}
    (hwf : Wf h0 N t0) {fuel : Nat} (hf : t0.tsteps ≤ fuel) :
    microRun fuel N RA ⟨h0, 0, t0.addr⟩ = (⟨h0, t0.addr, 0⟩, t0.tvisits RA) := by
  rw [← decode_init hwf, run_sim hwf fuel (ZOk_init t0), ziterate_full RA t0 hf]
  rfl

theorem microTake_decomp {α : Type} {h0 : Heap α} {N RA : Nat} {t0 : NTree α}
    (hwf : Wf h0 N t0) {fuel : Nat} (hf : t0.tsteps ≤ fuel) (k : Nat) :
    microTake fuel k N RA ⟨h0, 0, t0.addr⟩
      = (decodeSt h0 t0 (ztake fuel k RA (.run [] t0 0)).1,
          (t0.tvisits RA).take k)
      ∧ ZOk t0 (ztake fuel k RA (.run [] t0 0)).1 := by
  constructor
  · rw [← decode_init hwf, take_sim hwf fuel k (ZOk_init t0)]
    rw [ztake_yields RA fuel k, ziterate_full RA t0 hf]
  · exact ztake_ok fuel k (ZOk_init t0)

theorem microTake_dropRun {α : Type} {h0 : Heap α} {N RA : Nat} {t0 : NTree α}
    (hwf : Wf h0 N t0) {fuel fuel2 : Nat} (hf : t0.tsteps ≤ fuel)
    (hf2 : t0.tsteps ≤ fuel2) (k : Nat) :
    dropRun fuel2 N (microTake fuel k N RA ⟨h0, 0, t0.addr⟩).1
      = ⟨h0, t0.addr, 0⟩ := by
  obtain ⟨heq, hok⟩ := microTake_decomp hwf hf k
  rw [heq]
  exact dropRun_done hwf fuel2 hok ((zdepth_le hok hwf.2).trans hf2)

theorem iterN_char {α : Type} {h0 : Heap α} {N RA : Nat} {t0 : NTree α}
    (hwf : Wf h0 N t0) {j : Nat} {s' : St α}
    (hj : iterN j N RA ⟨h0, 0, t0.addr⟩ = some s') :
    ∃ Z, ZOk t0 Z ∧ s' = decodeSt h0 t0 Z := by
  rw [← decode_init hwf] at hj
  obtain ⟨heq, hok⟩ := reach_sim hwf j (ZOk_init t0)
  rw [heq] at hj
  rcases hz : zreach j RA (ZState.run [] t0 0) with _ | Z
  · rw [hz] at hj
    cases hj
  · rw [hz] at hj
    simp only [Option.map_some', Option.some.injEq] at hj
    exact ⟨Z, hok Z hz, hj.symm⟩

end CSD

namespace CSD

/-! ## Binary specialization (`src/binary_tree.rs`) -/

/-- Model of the binary `Node<T>`: a value and the two tagged slot words. -/
structure BNode (α : Type) where
  val : α
  left : Nat
  right : Nat
  deriving DecidableEq, Repr

/-- A heap of binary nodes. -/
def BHeap (α : Type) : Type := Nat → Option (BNode α)

def BHeap.upd {α : Type} (h : BHeap α) (a : Nat) (nd : BNode α) : BHeap α :=
  fun x => if x = a then some nd else h x

theorem BHeap.bupd_same {α : Type} (h : BHeap α) (a : Nat) (nd : BNode α) :
    h.upd a nd a = some nd := by
  simp [BHeap.upd]

theorem BHeap.bupd_other {α : Type} (h : BHeap α) (a : Nat) (nd : BNode α)
    {x : Nat} (hx : x ≠ a) : h.upd a nd x = h x := by
  simp [BHeap.upd, hx]

theorem BHeap.bupd_upd {α : Type} (h : BHeap α) (a : Nat) (nd1 nd2 : BNode α) :
    (h.upd a nd1).upd a nd2 = h.upd a nd2 := by
  funext x
  by_cases hx : x = a <;> simp [BHeap.upd, hx]

theorem BHeap.bupd_self_noop {α : Type} {h : BHeap α} {a : Nat} {nd : BNode α}
    (hx : h a = some nd) : h.upd a nd = h := by
  funext x
  by_cases hxa : x = a <;> simp [BHeap.upd, hxa, hx.symm]

/-- Traversal state of the binary `NodeIter`. -/
structure BSt (α : Type) where
  h : BHeap α
  prev : Nat
  cur : Nat

/-- Result of one iteration of the binary `NodeIter::next` loop.  The
`unreach` constructor is the `(false, true)` branch, where the source runs
the `unreachable!` abort. -/
inductive BStepRes (α : Type) where
  | finished
  | stuck
  | unreach
  | cont (s : BSt α) (yld : Option Nat)

/-- One iteration of the loop body of the binary `NodeIter::next`
(`src/binary_tree.rs`), dispatching on `(left.is_seen, right.is_seen)`:
`(false, false)` converts the left slot into a seen back-link and descends
left (or skips a null left child), yielding when `RETURN_ON_VISIT = 0`;
`(true, false)` does the same on the right, yielding when
`RETURN_ON_VISIT = 1`; `(false, true)` is the `unreachable!` abort;
`(true, true)` reconstructs the real left child (stored in the right slot)
and the real right child (held in `prev`), recovers the parent from the left
slot, and ascends, yielding when `RETURN_ON_VISIT = 2`. -/
def bstep {α : Type} (RA : Nat) (s : BSt α) : BStepRes α :=
  if s.cur = 0 then .finished else
  match s.h s.cur with
  | none => .stuck
  | some nd =>
    match isSeenW nd.left, isSeenW nd.right with
    | false, false =>
      let oldLeft := asUntagged nd.left
      let h' := s.h.upd s.cur ⟨nd.val, seenW s.prev, nd.right⟩
      if oldLeft = 0 then
        .cont ⟨h', oldLeft, s.cur⟩ (if RA = 0 then some s.cur else none)
      else
        .cont ⟨h', s.cur, oldLeft⟩ (if RA = 0 then some s.cur else none)
    | true, false =>
      let oldRight := asUntagged nd.right
      let h' := s.h.upd s.cur ⟨nd.val, nd.left, seenW s.prev⟩
      if oldRight = 0 then
        .cont ⟨h', oldRight, s.cur⟩ (if RA = 1 then some s.cur else none)
      else
        .cont ⟨h', s.cur, oldRight⟩ (if RA = 1 then some s.cur else none)
    | false, true => .unreach
    | true, true =>
      let h' := s.h.upd s.cur ⟨nd.val, unseenW nd.right, unseenW s.prev⟩
      .cont ⟨h', s.cur, asUntagged nd.left⟩ (if RA = 2 then some s.cur else none)

/-- Drop implementation of the binary `NodeIter` (`src/binary_tree.rs`): the
body only prints "dropping iter"; the `TODO: dropping iter needs to fixup
the tree` is not implemented, so the traversal state and the heap are left
untouched. -/
def bIterDrop {α : Type} (s : BSt α) : BSt α := s

/-- Drive binary `next` iterations to exhaustion, collecting yields. -/
def bmicroRun {α : Type} (fuel RA : Nat) (s : BSt α) : BSt α × List Nat :=
  match fuel with
  | 0 => (s, [])
  | fuel + 1 =>
    match bstep RA s with
    | .cont s' y =>
      let r := bmicroRun fuel RA s'
      (r.1, y.toList ++ r.2)
    | _ => (s, [])

/-- Drive binary `next` iterations until `k` yields, stopping right after
the `k`-th. -/
def bmicroTake {α : Type} (fuel k RA : Nat) (s : BSt α) : BSt α × List Nat :=
  match fuel with
  | 0 => (s, [])
  | fuel + 1 =>
    if k = 0 then (s, []) else
    match bstep RA s with
    | .cont s' y =>
      match y with
      | none => bmicroTake fuel k RA s'
      | some a =>
        let r := bmicroTake fuel (k - 1) RA s'
        (r.1, a :: r.2)
    | _ => (s, [])

/-- Does the binary machine hit the `unreachable!` branch within `j`
iterations? -/
def bReachAbort {α : Type} (j RA : Nat) (s : BSt α) : Bool :=
  match j with
  | 0 => false
  | j + 1 =>
    match bstep RA s with
    | .unreach => true
    | .cont s' _ => bReachAbort j RA s'
    | _ => false

/-- Logical binary trees (`nil` is a null slot). -/
inductive BTree (α : Type) where
  | nil
  | node (addr : Nat) (val : α) (l r : BTree α)
  deriving DecidableEq

/-- Slot word of a binary subtree at rest: its address, or null. -/
def BTree.addrOf {α : Type} : BTree α → Nat
  | .nil => 0
  | .node a _ _ _ => a

def BTree.baddrs {α : Type} : BTree α → List Nat
  | .nil => []
  | .node a _ l r => a :: (l.baddrs ++ r.baddrs)

/-- Representation of a binary tree in a heap at rest. -/
def brep {α : Type} (h : BHeap α) : BTree α → Prop
  | .nil => True
  | .node a v l r =>
    a ≠ 0 ∧ a % 2 = 0 ∧ h a = some ⟨v, l.addrOf, r.addrOf⟩ ∧ brep h l ∧ brep h r

def decBrep {α : Type} [DecidableEq α] (h : BHeap α) :
    (t : BTree α) → Decidable (brep h t)
  | .nil => by rw [brep]; infer_instance
  | .node a v l r =>
    have : Decidable (brep h l) := decBrep h l
    have : Decidable (brep h r) := decBrep h r
    by rw [brep]; infer_instance

instance {α : Type} [DecidableEq α] (h : BHeap α) (t : BTree α) :
    Decidable (brep h t) := decBrep h t

/-- Well-formed binary tree at rest. -/
def BWf {α : Type} (h : BHeap α) (t : BTree α) : Prop :=
  brep h t ∧ t.baddrs.Nodup

instance {α : Type} [DecidableEq α] (h : BHeap α) (t : BTree α) :
    Decidable (BWf h t) := by unfold BWf; infer_instance

def BTree.bpreA {α : Type} : BTree α → List Nat
  | .nil => []
  | .node a _ l r => a :: (l.bpreA ++ r.bpreA)

def BTree.binA {α : Type} : BTree α → List Nat
  | .nil => []
  | .node a _ l r => l.binA ++ a :: r.binA

def BTree.bpostA {α : Type} : BTree α → List Nat
  | .nil => []
  | .node a _ l r => l.bpostA ++ r.bpostA ++ [a]

/-- Independent recursive pre-order, in-order and post-order value
sequences for binary trees. -/
def BTree.bpreV {α : Type} : BTree α → List α
  | .nil => []
  | .node _ v l r => v :: (l.bpreV ++ r.bpreV)

def BTree.binV {α : Type} : BTree α → List α
  | .nil => []
  | .node _ v l r => l.binV ++ v :: r.binV

def BTree.bpostV {α : Type} : BTree α → List α
  | .nil => []
  | .node _ v l r => l.bpostV ++ r.bpostV ++ [v]

/-- Addresses yielded by the binary machine over a subtree. -/
def BTree.bvisits {α : Type} (RA : Nat) : BTree α → List Nat
  | .nil => []
  | .node a _ l r =>
    (if RA = 0 then [a] else []) ++ l.bvisits RA
      ++ (if RA = 1 then [a] else []) ++ r.bvisits RA
      ++ (if RA = 2 then [a] else [])

/-- Loop iterations a full binary traversal spends on a subtree. -/
def BTree.bsteps {α : Type} : BTree α → Nat
  | .nil => 0
  | .node _ _ l r => l.bsteps + r.bsteps + 3

/-- Value stored at a binary heap address. -/
def bvalAt {α : Type} (h : BHeap α) (a : Nat) : Option α := (h a).map BNode.val

end CSD

namespace CSD

/-! ## Binary zipper view -/

/-- An ancestor on the binary traversal spine: the fields of its node and
which side (`k = 1`: left, `k = 2`: right) the traversal descended. -/
structure BFrame (α : Type) where
  addr : Nat
  val : α
  l : BTree α
  r : BTree α
  k : Nat

/-- Abstract binary traversal state. -/
inductive BZ (α : Type) where
  | run (stack : List (BFrame α)) (t : BTree α) (k : Nat)
  | done

def BFrame.node {α : Type} (f : BFrame α) : BTree α := .node f.addr f.val f.l f.r

def bheadAddr {α : Type} : List (BFrame α) → Nat
  | [] => 0
  | f :: _ => f.addr

/-- Heap contents of a binary node whose first `k` sides are converted. -/
def bnodeAt {α : Type} (v : α) (l r : BTree α) (k p : Nat) : BNode α :=
  if k = 0 then ⟨v, l.addrOf, r.addrOf⟩
  else if k = 1 then ⟨v, seenW p, r.addrOf⟩
  else ⟨v, seenW p, seenW l.addrOf⟩

def bstackEntries {α : Type} : List (BFrame α) → List (Nat × BNode α)
  | [] => []
  | f :: rest =>
    (f.addr, bnodeAt f.val f.l f.r f.k (bheadAddr rest)) :: bstackEntries rest

def bapplyEntries {α : Type} (h : BHeap α) : List (Nat × BNode α) → BHeap α
  | [] => h
  | (a, nd) :: rest => bapplyEntries (h.upd a nd) rest

def bfocusEntries {α : Type} : BTree α → Nat → Nat → List (Nat × BNode α)
  | .nil, _, _ => []
  | .node a v l r, k, p => [(a, bnodeAt v l r k p)]

def bprevOf {α : Type} : BTree α → Nat → Nat → Nat
  | .nil, _, p => p
  | .node _ _ l r, k, p =>
    if k = 0 then p else if k = 1 then l.addrOf else r.addrOf

/-- Concrete binary machine state denoted by an abstract state. -/
def bdecode {α : Type} (h0 : BHeap α) (t0 : BTree α) : BZ α → BSt α
  | .done => ⟨h0, t0.addrOf, 0⟩
  | .run stack t k =>
    ⟨bapplyEntries h0 (bfocusEntries t k (bheadAddr stack) ++ bstackEntries stack),
      bprevOf t k (bheadAddr stack), t.addrOf⟩

def bspineOk {α : Type} (t0 : BTree α) : List (BFrame α) → BTree α → Prop
  | [], t => t = t0
  | f :: rest, t =>
    bspineOk t0 rest f.node ∧ ((f.k = 1 ∧ f.l = t) ∨ (f.k = 2 ∧ f.r = t))

def BOk {α : Type} (t0 : BTree α) : BZ α → Prop
  | .done => True
  | .run stack t k => bspineOk t0 stack t ∧ t ≠ .nil ∧ k ≤ 2

/-- Abstract counterpart of one binary `next` loop iteration. -/
def bzipStep {α : Type} (RA : Nat) : BZ α → Option (BZ α × Option Nat)
  | .done => none
  | .run _ .nil _ => none
  | .run stack (.node a v l r) 0 =>
    match l with
    | .nil => some (.run stack (.node a v l r) 1, if RA = 0 then some a else none)
    | .node a' v' l' r' =>
      some (.run (⟨a, v, l, r, 1⟩ :: stack) (.node a' v' l' r') 0,
        if RA = 0 then some a else none)
  | .run stack (.node a v l r) 1 =>
    match r with
    | .nil => some (.run stack (.node a v l r) 2, if RA = 1 then some a else none)
    | .node a' v' l' r' =>
      some (.run (⟨a, v, l, r, 2⟩ :: stack) (.node a' v' l' r') 0,
        if RA = 1 then some a else none)
  | .run stack (.node a v l r) _ =>
    match stack with
    | [] => some (.done, if RA = 2 then some a else none)
    | f :: rest => some (.run rest f.node f.k, if RA = 2 then some a else none)

/-- Abstract mirrors of the binary drivers. -/
def bziterate {α : Type} (fuel RA : Nat) (Z : BZ α) : BZ α × List Nat :=
  match fuel with
  | 0 => (Z, [])
  | fuel + 1 =>
    match bzipStep RA Z with
    | none => (Z, [])
    | some (Z', y) =>
      let r := bziterate fuel RA Z'
      (r.1, y.toList ++ r.2)

def bztake {α : Type} (fuel k RA : Nat) (Z : BZ α) : BZ α × List Nat :=
  match fuel with
  | 0 => (Z, [])
  | fuel + 1 =>
    if k = 0 then (Z, []) else
    match bzipStep RA Z with
    | none => (Z, [])
    | some (Z', y) =>
      match y with
      | none => bztake fuel k RA Z'
      | some a =>
        let r := bztake fuel (k - 1) RA Z'
        (r.1, a :: r.2)

/-! ## Binary override algebra and spine facts -/

theorem bapplyEntries_not_mem {α : Type} {es : List (Nat × BNode α)} {x : Nat}
    (hx : x ∉ es.map Prod.fst) : ∀ h : BHeap α, bapplyEntries h es x = h x := by
  induction es with
  | nil => intro h; rfl
  | cons e rest ih =>
    intro h
    simp only [List.map_cons, List.mem_cons] at hx
    push_neg at hx
    simp only [bapplyEntries]
    rw [ih hx.2, BHeap.bupd_other _ _ _ hx.1]

theorem bapplyEntries_congr_at {α : Type} {h1 h2 : BHeap α} {x : Nat}
    (hx : h1 x = h2 x) : ∀ es : List (Nat × BNode α),
    bapplyEntries h1 es x = bapplyEntries h2 es x := by
  intro es
  induction es generalizing h1 h2 with
  | nil => exact hx
  | cons e rest ih =>
    simp only [bapplyEntries]
    apply ih
    by_cases hxe : x = e.1 <;> simp [BHeap.upd, hxe, hx]

theorem bapplyEntries_cons_comm {α : Type} {a : Nat} {nd : BNode α}
    {es : List (Nat × BNode α)} (ha : a ∉ es.map Prod.fst) (h : BHeap α) :
    bapplyEntries h ((a, nd) :: es) = (bapplyEntries h es).upd a nd := by
  funext x
  by_cases hx : x = a
  · subst hx
    simp only [bapplyEntries]
    rw [bapplyEntries_not_mem ha, BHeap.bupd_same, BHeap.bupd_same]
  · simp only [bapplyEntries]
    rw [BHeap.bupd_other _ _ _ hx]
    exact bapplyEntries_congr_at (BHeap.bupd_other _ _ _ hx) es

def bstackAddrs {α : Type} (stack : List (BFrame α)) : List Nat :=
  stack.map (fun f => f.addr)

theorem bstackEntries_fst {α : Type} (stack : List (BFrame α)) :
    (bstackEntries stack).map Prod.fst = bstackAddrs stack := by
  induction stack with
  | nil => rfl
  | cons f rest ih => simp [bstackEntries, bstackAddrs] at ih ⊢; exact ih

theorem bstack_at {α : Type} {stack : List (BFrame α)} {x : Nat} (h0 : BHeap α)
    (hx : x ∉ bstackAddrs stack) :
    bapplyEntries h0 (bstackEntries stack) x = h0 x := by
  apply bapplyEntries_not_mem
  rw [bstackEntries_fst]
  exact hx

theorem brep_addrOf_even {α : Type} {h : BHeap α} {t : BTree α}
    (hrep : brep h t) : t.addrOf % 2 = 0 := by
  cases t with
  | nil => rfl
  | node a v l r =>
    rw [brep] at hrep
    exact hrep.2.1

theorem bspine_rep {α : Type} {h0 : BHeap α} {t0 t : BTree α}
    {stack : List (BFrame α)} (hrep : brep h0 t0) (hsp : bspineOk t0 stack t) :
    brep h0 t ∧ ∀ f ∈ stack, brep h0 f.node := by
  induction stack generalizing t with
  | nil =>
    rw [bspineOk] at hsp
    subst hsp
    exact ⟨hrep, by simp⟩
  | cons f rest ih =>
    rw [bspineOk] at hsp
    obtain ⟨hsp2, hside⟩ := hsp
    obtain ⟨hf, hrest⟩ := ih hsp2
    have hft : brep h0 t := by
      rw [BFrame.node, brep] at hf
      rcases hside with ⟨_, rfl⟩ | ⟨_, rfl⟩
      · exact hf.2.2.2.1
      · exact hf.2.2.2.2
    refine ⟨hft, ?_⟩
    intro g hg
    rcases List.mem_cons.1 hg with rfl | hg'
    · exact hf
    · exact hrest g hg'

theorem baddrs_eq {α : Type} (a : Nat) (v : α) (l r : BTree α) :
    (BTree.node a v l r).baddrs = a :: (l.baddrs ++ r.baddrs) := by
  rw [BTree.baddrs]

theorem baddrOf_mem {α : Type} {t : BTree α} (h : t ≠ .nil) :
    t.addrOf ∈ t.baddrs := by
  cases t with
  | nil => exact absurd rfl h
  | node a v l r => rw [baddrs_eq]; simp [BTree.addrOf]

theorem bspine_nodup_sub {α : Type} {t0 t : BTree α} {stack : List (BFrame α)}
    (hsp : bspineOk t0 stack t) (hnd : t0.baddrs.Nodup) :
    (bstackAddrs stack ++ t.baddrs).Nodup ∧
      ∀ x ∈ bstackAddrs stack ++ t.baddrs, x ∈ t0.baddrs := by
  induction stack generalizing t with
  | nil =>
    rw [bspineOk] at hsp
    subst hsp
    simpa [bstackAddrs] using hnd
  | cons f rest ih =>
    rw [bspineOk] at hsp
    obtain ⟨hsp2, hside⟩ := hsp
    obtain ⟨ihnd, ihsub⟩ := ih hsp2
    have hsubl : (f.addr :: t.baddrs).Sublist f.node.baddrs := by
      rw [BFrame.node, baddrs_eq]
      rcases hside with ⟨_, rfl⟩ | ⟨_, rfl⟩
      · exact (List.sublist_append_left _ _).cons₂ f.addr
      · exact (List.sublist_append_right _ _).cons₂ f.addr
    have hnd2 : (bstackAddrs rest ++ (f.addr :: t.baddrs)).Nodup :=
      List.Nodup.sublist (hsubl.append_left (bstackAddrs rest)) ihnd
    have hperm : (bstackAddrs rest ++ f.addr :: t.baddrs).Perm
        (f.addr :: (bstackAddrs rest ++ t.baddrs)) := List.perm_middle
    have heq : bstackAddrs (f :: rest) ++ t.baddrs
        = f.addr :: (bstackAddrs rest ++ t.baddrs) := by
      simp [bstackAddrs]
    constructor
    · rw [heq]
      exact hperm.nodup hnd2
    · intro x hx
      rw [heq] at hx
      rcases List.mem_cons.1 hx with rfl | hx'
      · apply ihsub
        simp only [List.mem_append]
        right
        exact hsubl.subset (by simp)
      · rcases List.mem_append.1 hx' with hx2 | hx2
        · exact ihsub _ (by simp [hx2])
        · apply ihsub
          simp only [List.mem_append]
          right
          exact hsubl.subset (by simp [hx2])

theorem bspine_focus_not_stack {α : Type} {t0 t : BTree α}
    {stack : List (BFrame α)} (hsp : bspineOk t0 stack t)
    (hnd : t0.baddrs.Nodup) (hne : t ≠ .nil) :
    t.addrOf ∉ bstackAddrs stack := by
  obtain ⟨hnd2, _⟩ := bspine_nodup_sub hsp hnd
  rw [List.nodup_append] at hnd2
  intro hmem
  exact hnd2.2.2 hmem (baddrOf_mem hne)

theorem bheadAddr_even {α : Type} {h0 : BHeap α}
    {stack : List (BFrame α)} (hrep : ∀ f ∈ stack, brep h0 f.node) :
    bheadAddr stack % 2 = 0 := by
  cases stack with
  | nil => rfl
  | cons f rest =>
    have := hrep f (by simp)
    rw [BFrame.node, brep] at this
    exact this.2.1

theorem bdecode_run_heap {α : Type} (h0 : BHeap α) (t0 : BTree α)
    {stack : List (BFrame α)} {a : Nat} {v : α} {l r : BTree α} (k : Nat)
    (hx : a ∉ bstackAddrs stack) :
    (bdecode h0 t0 (.run stack (.node a v l r) k)).h
      = (bapplyEntries h0 (bstackEntries stack)).upd a
          (bnodeAt v l r k (bheadAddr stack)) := by
  simp only [bdecode, bfocusEntries, List.cons_append, List.nil_append]
  rw [bapplyEntries_cons_comm (by rw [bstackEntries_fst]; exact hx)]

theorem bnodeAt_zero {α : Type} (v : α) (l r : BTree α) (p : Nat) :
    bnodeAt v l r 0 p = ⟨v, l.addrOf, r.addrOf⟩ := rfl

theorem bnodeAt_one {α : Type} (v : α) (l r : BTree α) (p : Nat) :
    bnodeAt v l r 1 p = ⟨v, seenW p, r.addrOf⟩ := rfl

theorem bnodeAt_two {α : Type} (v : α) (l r : BTree α) (p : Nat) :
    bnodeAt v l r 2 p = ⟨v, seenW p, seenW l.addrOf⟩ := rfl

theorem bstep_sim {α : Type} {h0 : BHeap α} {RA : Nat} {t0 : BTree α}
    (hwf : BWf h0 t0) :
    ∀ {Z : BZ α}, BOk t0 Z →
    bstep RA (bdecode h0 t0 Z) =
      (match bzipStep RA Z with
       | none => .finished
       | some (Z', y) => .cont (bdecode h0 t0 Z') y) := by
  intro Z hZ
  cases Z with
  | done =>
    show bstep RA ⟨h0, t0.addrOf, 0⟩ = _
    rw [bstep]
    rfl
  | run stack t k =>
    rw [BOk] at hZ
    obtain ⟨hsp, hne, hk⟩ := hZ
    cases t with
    | nil => exact absurd rfl hne
    | node a v l r =>
      obtain ⟨hrept, hreps⟩ := bspine_rep hwf.1 hsp
      rw [brep] at hrept
      obtain ⟨hane, haev, hlook0, hrl, hrr⟩ := hrept
      have hnotin : a ∉ bstackAddrs stack :=
        bspine_focus_not_stack hsp hwf.2 hne
      have hpeven : bheadAddr stack % 2 = 0 := bheadAddr_even hreps
      have hleven : l.addrOf % 2 = 0 := brep_addrOf_even hrl
      have hreven : r.addrOf % 2 = 0 := brep_addrOf_even hrr
      set p := bheadAddr stack with hp
      set SE := bstackEntries stack with hSE
      have hbase : ∀ x, x ∉ bstackAddrs stack → bapplyEntries h0 SE x = h0 x :=
        fun x hx => bstack_at h0 hx
      have hlookSE : bapplyEntries h0 SE a = some ⟨v, l.addrOf, r.addrOf⟩ := by
        rw [hbase a hnotin]
        exact hlook0
      have hstate : bdecode h0 t0 (.run stack (.node a v l r) k)
          = ⟨(bapplyEntries h0 SE).upd a (bnodeAt v l r k p),
              bprevOf (.node a v l r) k p, a⟩ := by
        simp only [bdecode, bfocusEntries, List.cons_append, List.nil_append]
        rw [bapplyEntries_cons_comm (by rw [bstackEntries_fst]; exact hnotin)]
        rfl
      rw [hstate, bstep]
      simp only [hane, if_false, BHeap.bupd_same]
      rcases k with _ | _ | _ | k
      · -- k = 0: first visit
        rw [bnodeAt_zero]
        simp only [isSeenW_even hleven, isSeenW_even hreven]
        rw [show bprevOf (BTree.node a v l r) 0 p = p from rfl]
        cases l with
        | nil =>
          simp only [BTree.addrOf, asUntagged, bzipStep]
          norm_num
          have hZ' : bdecode h0 t0 (.run stack (.node a v .nil r) 1)
              = ⟨(bapplyEntries h0 SE).upd a (bnodeAt v .nil r 1 p), 0, a⟩ := by
            simp only [bdecode, bfocusEntries, List.cons_append, List.nil_append]
            rw [bapplyEntries_cons_comm (by rw [bstackEntries_fst]; exact hnotin)]
            rfl
          rw [hZ', bnodeAt_one, BHeap.bupd_upd]
          rfl
        | node a' v' l' r' =>
          rw [brep] at hrl
          have ha'ne : a' ≠ 0 := hrl.1
          have ha'ev : a' % 2 = 0 := hrl.2.1
          rw [show (BTree.node a' v' l' r').addrOf = a' from rfl,
            asUntagged_even ha'ev]
          simp only [if_neg ha'ne, bzipStep]
          -- membership facts for the child address
          obtain ⟨hnd2, _⟩ := bspine_nodup_sub hsp hwf.2
          rw [List.nodup_append] at hnd2
          have hmema : a' ∈ (BTree.node a v (.node a' v' l' r') r).baddrs := by
            rw [baddrs_eq]
            simp [baddrs_eq]
          have hanotstack : a' ∉ bstackAddrs stack :=
            fun hmem => hnd2.2.2 hmem hmema
          have hanota : a' ≠ a := by
            intro heq
            have hndt := hnd2.2.1
            rw [baddrs_eq, List.nodup_cons] at hndt
            apply hndt.1
            rw [← heq]
            simp [baddrs_eq]
          have hZ' : bdecode h0 t0
                (.run (⟨a, v, .node a' v' l' r', r, 1⟩ :: stack) (.node a' v' l' r') 0)
              = ⟨((bapplyEntries h0 SE).upd a (bnodeAt v (.node a' v' l' r') r 1 p)).upd
                    a' (bnodeAt v' l' r' 0 a), a, a'⟩ := by
            simp only [bdecode, bfocusEntries, bstackEntries, bheadAddr,
              List.cons_append, List.nil_append]
            rw [bapplyEntries_cons_comm (by
              rw [List.map_cons, bstackEntries_fst]
              simp only [List.mem_cons]
              push_neg
              exact ⟨hanota, hanotstack⟩)]
            rw [bapplyEntries_cons_comm (by rw [bstackEntries_fst]; exact hnotin)]
            rfl
          rw [hZ', bnodeAt_one, bnodeAt_zero, BHeap.bupd_upd]
          have hnoop : ((bapplyEntries h0 SE).upd a ⟨v, seenW p, r.addrOf⟩).upd a'
                ⟨v', l'.addrOf, r'.addrOf⟩
              = (bapplyEntries h0 SE).upd a ⟨v, seenW p, r.addrOf⟩ := by
            apply BHeap.bupd_self_noop
            rw [BHeap.bupd_other _ _ _ hanota, hbase a' hanotstack]
            exact hrl.2.2.1
          rw [hnoop]
      · -- k = 1: left side finished, convert the right slot
        rw [bnodeAt_one]
        simp only [isSeenW_seenW, isSeenW_even hreven]
        rw [show bprevOf (BTree.node a v l r) 1 p = l.addrOf from rfl]
        cases r with
        | nil =>
          simp only [BTree.addrOf, asUntagged, bzipStep]
          norm_num
          have hZ' : bdecode h0 t0 (.run stack (.node a v l .nil) 2)
              = ⟨(bapplyEntries h0 SE).upd a (bnodeAt v l .nil 2 p), 0, a⟩ := by
            simp only [bdecode, bfocusEntries, List.cons_append, List.nil_append]
            rw [bapplyEntries_cons_comm (by rw [bstackEntries_fst]; exact hnotin)]
            rfl
          rw [hZ', bnodeAt_two, BHeap.bupd_upd]
          rfl
        | node a' v' l' r' =>
          rw [brep] at hrr
          have ha'ne : a' ≠ 0 := hrr.1
          have ha'ev : a' % 2 = 0 := hrr.2.1
          rw [show (BTree.node a' v' l' r').addrOf = a' from rfl,
            asUntagged_even ha'ev]
          simp only [if_neg ha'ne, bzipStep]
          obtain ⟨hnd2, _⟩ := bspine_nodup_sub hsp hwf.2
          rw [List.nodup_append] at hnd2
          have hmema : a' ∈ (BTree.node a v l (.node a' v' l' r')).baddrs := by
            rw [baddrs_eq]
            simp [baddrs_eq]
          have hanotstack : a' ∉ bstackAddrs stack :=
            fun hmem => hnd2.2.2 hmem hmema
          have hanota : a' ≠ a := by
            intro heq
            have hndt := hnd2.2.1
            rw [baddrs_eq, List.nodup_cons] at hndt
            apply hndt.1
            rw [← heq]
            simp [baddrs_eq]
          have hZ' : bdecode h0 t0
                (.run (⟨a, v, l, .node a' v' l' r', 2⟩ :: stack) (.node a' v' l' r') 0)
              = ⟨((bapplyEntries h0 SE).upd a (bnodeAt v l (.node a' v' l' r') 2 p)).upd
                    a' (bnodeAt v' l' r' 0 a), a, a'⟩ := by
            simp only [bdecode, bfocusEntries, bstackEntries, bheadAddr,
              List.cons_append, List.nil_append]
            rw [bapplyEntries_cons_comm (by
              rw [List.map_cons, bstackEntries_fst]
              simp only [List.mem_cons]
              push_neg
              exact ⟨hanota, hanotstack⟩)]
            rw [bapplyEntries_cons_comm (by rw [bstackEntries_fst]; exact hnotin)]
            rfl
          rw [hZ', bnodeAt_two, bnodeAt_zero, BHeap.bupd_upd]
          have hnoop : ((bapplyEntries h0 SE).upd a
                  ⟨v, seenW p, seenW l.addrOf⟩).upd a'
                ⟨v', l'.addrOf, r'.addrOf⟩
              = (bapplyEntries h0 SE).upd a
                  ⟨v, seenW p, seenW l.addrOf⟩ := by
            apply BHeap.bupd_self_noop
            rw [BHeap.bupd_other _ _ _ hanota, hbase a' hanotstack]
            exact hrr.2.2.1
          rw [hnoop]
      · -- k = 2: both sides finished, restore and ascend
        rw [bnodeAt_two]
        simp only [isSeenW_seenW]
        rw [show bprevOf (BTree.node a v l r) 2 p = r.addrOf from rfl]
        rw [unseenW_seenW (brep_addrOf_even hrl), unseenW_even hreven,
          asUntagged_seenW hpeven, BHeap.bupd_upd,
          BHeap.bupd_self_noop hlookSE]
        cases stack with
        | nil =>
          rw [bspineOk] at hsp
          simp only [bzipStep]
          rw [← hsp]
          rfl
        | cons f rest =>
          rw [bspineOk] at hsp
          obtain ⟨hsp2, hside⟩ := hsp
          simp only [bzipStep]
          have hdec : bdecode h0 t0 (.run rest f.node f.k)
              = ⟨bapplyEntries h0 SE, a, f.addr⟩ := by
            simp only [bdecode, BFrame.node, bfocusEntries,
              List.cons_append, List.nil_append]
            have hprev2 : bprevOf (BTree.node f.addr f.val f.l f.r) f.k
                (bheadAddr rest) = a := by
              rcases hside with ⟨hk1, hchild⟩ | ⟨hk2, hchild⟩
              · rw [show bprevOf (BTree.node f.addr f.val f.l f.r) f.k
                    (bheadAddr rest) = if f.k = 0 then bheadAddr rest
                      else if f.k = 1 then f.l.addrOf else f.r.addrOf from rfl,
                  if_neg (by omega), if_pos hk1, hchild]
                rfl
              · rw [show bprevOf (BTree.node f.addr f.val f.l f.r) f.k
                    (bheadAddr rest) = if f.k = 0 then bheadAddr rest
                      else if f.k = 1 then f.l.addrOf else f.r.addrOf from rfl,
                  if_neg (by omega), if_neg (by omega), hchild]
                rfl
            rw [hprev2]
            rfl
          rw [hdec]
          rfl
      · omega

/-! ## Binary zipper preservation and driver simulations -/

theorem bzip_preserve {α : Type} {t0 : BTree α} {RA : Nat} {Z Z' : BZ α}
    {y : Option Nat} (hZ : BOk t0 Z) (hstep : bzipStep RA Z = some (Z', y)) :
    BOk t0 Z' := by
  cases Z with
  | done => simp [bzipStep] at hstep
  | run stack t k =>
    rw [BOk] at hZ
    obtain ⟨hsp, hne, hk⟩ := hZ
    cases t with
    | nil => exact absurd rfl hne
    | node a v l r =>
      match k, hk with
      | 0, _ =>
        cases l with
        | nil =>
          simp only [bzipStep, Option.some.injEq, Prod.mk.injEq] at hstep
          obtain ⟨rfl, rfl⟩ := hstep
          exact ⟨hsp, hne, by omega⟩
        | node a' v' l' r' =>
          simp only [bzipStep, Option.some.injEq, Prod.mk.injEq] at hstep
          obtain ⟨rfl, rfl⟩ := hstep
          refine ⟨⟨hsp, Or.inl ⟨rfl, rfl⟩⟩, by simp, by omega⟩
      | 1, _ =>
        cases r with
        | nil =>
          simp only [bzipStep, Option.some.injEq, Prod.mk.injEq] at hstep
          obtain ⟨rfl, rfl⟩ := hstep
          exact ⟨hsp, hne, by omega⟩
        | node a' v' l' r' =>
          simp only [bzipStep, Option.some.injEq, Prod.mk.injEq] at hstep
          obtain ⟨rfl, rfl⟩ := hstep
          refine ⟨⟨hsp, Or.inr ⟨rfl, rfl⟩⟩, by simp, by omega⟩
      | 2, _ =>
        cases stack with
        | nil =>
          simp only [bzipStep, Option.some.injEq, Prod.mk.injEq] at hstep
          obtain ⟨rfl, rfl⟩ := hstep
          trivial
        | cons f rest =>
          simp only [bzipStep, Option.some.injEq, Prod.mk.injEq] at hstep
          obtain ⟨rfl, rfl⟩ := hstep
          rw [bspineOk] at hsp
          refine ⟨hsp.1, by simp [BFrame.node], ?_⟩
          rcases hsp.2 with ⟨hk1, _⟩ | ⟨hk2, _⟩ <;> omega

theorem bziterate_ok {α : Type} {t0 : BTree α} {RA : Nat} (fuel : Nat) :
    ∀ {Z : BZ α}, BOk t0 Z → BOk t0 (bziterate fuel RA Z).1 := by
  induction fuel with
  | zero => intro Z hZ; exact hZ
  | succ fuel ih =>
    intro Z hZ
    rw [bziterate]
    rcases hzs : bzipStep RA Z with _ | ⟨Z', y⟩
    · exact hZ
    · exact ih (bzip_preserve hZ hzs)

theorem bztake_ok {α : Type} {t0 : BTree α} {RA : Nat} (fuel : Nat) :
    ∀ (k : Nat) {Z : BZ α}, BOk t0 Z → BOk t0 (bztake fuel k RA Z).1 := by
  induction fuel with
  | zero => intro k Z hZ; exact hZ
  | succ fuel ih =>
    intro k Z hZ
    rw [bztake]
    by_cases hk : k = 0
    · subst hk
      simpa using hZ
    · rw [if_neg hk]
      rcases hzs : bzipStep RA Z with _ | ⟨Z', y⟩
      · exact hZ
      · have hZ' := bzip_preserve hZ hzs
        cases y with
        | none => exact ih k hZ'
        | some a => exact ih (k - 1) hZ'

theorem brun_sim {α : Type} {h0 : BHeap α} {RA : Nat} {t0 : BTree α}
    (hwf : BWf h0 t0) (fuel : Nat) :
    ∀ {Z : BZ α}, BOk t0 Z →
    bmicroRun fuel RA (bdecode h0 t0 Z)
      = (bdecode h0 t0 (bziterate fuel RA Z).1, (bziterate fuel RA Z).2) := by
  induction fuel with
  | zero => intro Z hZ; rfl
  | succ fuel ih =>
    intro Z hZ
    rw [bmicroRun, bziterate, bstep_sim hwf hZ]
    rcases hzs : bzipStep RA Z with _ | ⟨Z', y⟩
    · rfl
    · simp only [ih (bzip_preserve hZ hzs)]

theorem btake_sim {α : Type} {h0 : BHeap α} {RA : Nat} {t0 : BTree α}
    (hwf : BWf h0 t0) (fuel : Nat) :
    ∀ (k : Nat) {Z : BZ α}, BOk t0 Z →
    bmicroTake fuel k RA (bdecode h0 t0 Z)
      = (bdecode h0 t0 (bztake fuel k RA Z).1, (bztake fuel k RA Z).2) := by
  induction fuel with
  | zero => intro k Z hZ; rfl
  | succ fuel ih =>
    intro k Z hZ
    rw [bmicroTake, bztake]
    by_cases hk : k = 0
    · subst hk
      simp
    · rw [if_neg hk, if_neg hk, bstep_sim hwf hZ]
      rcases hzs : bzipStep RA Z with _ | ⟨Z', y⟩
      · rfl
      · have hZ' := bzip_preserve hZ hzs
        cases y with
        | none => exact ih k hZ'
        | some a => simp only [ih (k - 1) hZ']

/-- From any abstractly tracked state the binary machine never reaches the
`unreachable!` branch. -/
theorem babort_sim {α : Type} {h0 : BHeap α} {RA : Nat} {t0 : BTree α}
    (hwf : BWf h0 t0) (j : Nat) :
    ∀ {Z : BZ α}, BOk t0 Z → bReachAbort j RA (bdecode h0 t0 Z) = false := by
  induction j with
  | zero => intro Z hZ; rfl
  | succ j ih =>
    intro Z hZ
    rw [bReachAbort, bstep_sim hwf hZ]
    rcases hzs : bzipStep RA Z with _ | ⟨Z', y⟩
    · rfl
    · exact ih (bzip_preserve hZ hzs)

/-! ## Binary zipper driver algebra -/

theorem bziterate_done {α : Type} (fuel RA : Nat) :
    bziterate fuel RA (BZ.done : BZ α) = (.done, []) := by
  cases fuel with
  | zero => rfl
  | succ fuel => rw [bziterate]; rfl

theorem bziterate_stop {α : Type} {RA : Nat} {Z : BZ α}
    (h : bzipStep RA Z = none) (b : Nat) : bziterate b RA Z = (Z, []) := by
  cases b with
  | zero => rfl
  | succ b => rw [bziterate, h]

theorem bziterate_peel {α : Type} {RA n : Nat} {Z Z' : BZ α} {y : Option Nat}
    (h : bzipStep RA Z = some (Z', y)) :
    bziterate (n + 1) RA Z
      = ((bziterate n RA Z').1, y.toList ++ (bziterate n RA Z').2) := by
  rw [bziterate, h]

theorem bziterate_add {α : Type} (RA a b : Nat) :
    ∀ Z : BZ α,
    bziterate (a + b) RA Z
      = ((bziterate b RA (bziterate a RA Z).1).1,
          (bziterate a RA Z).2 ++ (bziterate b RA (bziterate a RA Z).1).2) := by
  induction a with
  | zero => intro Z; simp [bziterate]
  | succ a ih =>
    intro Z
    rcases hzs : bzipStep RA Z with _ | ⟨Z', y⟩
    · rw [bziterate_stop hzs (a + 1 + b), bziterate_stop hzs (a + 1),
        bziterate_stop hzs b]
      simp [bziterate_stop hzs]
    · have hstep1 : ∀ n, bziterate (n + 1) RA Z
          = ((bziterate n RA Z').1, y.toList ++ (bziterate n RA Z').2) := by
        intro n
        rw [bziterate, hzs]
      rw [show a + 1 + b = (a + b) + 1 from by omega, hstep1 (a + b),
        hstep1 a, ih Z']
      simp

theorem bztake_yields {α : Type} (RA : Nat) :
    ∀ (fuel k : Nat) (Z : BZ α),
    (bztake fuel k RA Z).2 = (bziterate fuel RA Z).2.take k := by
  intro fuel
  induction fuel with
  | zero => intro k Z; simp [bztake, bziterate]
  | succ fuel ih =>
    intro k Z
    rw [bztake, bziterate]
    by_cases hk : k = 0
    · subst hk
      simp
    · rw [if_neg hk]
      rcases hzs : bzipStep RA Z with _ | ⟨Z', y⟩
      · simp
      · cases y with
        | none => rw [ih k Z']; rfl
        | some a =>
          simp only [Option.toList_some]
          rw [ih (k - 1) Z']
          rcases Nat.exists_eq_add_of_lt (Nat.pos_of_ne_zero hk) with ⟨m, hm⟩
          rw [show k = m + 1 from by omega]
          simp

/-! ## Binary segment behaviour -/

/-- State the binary traversal returns to when the focused subtree is
finished. -/
def bpopTo {α : Type} : List (BFrame α) → BZ α
  | [] => .done
  | f :: rest => .run rest f.node f.k

theorem bsegT {α : Type} (RA : Nat) :
    ∀ (t : BTree α) (stack : List (BFrame α)), t ≠ .nil →
    bziterate t.bsteps RA (.run stack t 0) = (bpopTo stack, t.bvisits RA)
  | .nil, _, hne => absurd rfl hne
  | .node a v l r, stack, _ => by
    rw [BTree.bsteps, BTree.bvisits]
    have hseg1 : bziterate (1 + l.bsteps) RA (.run stack (.node a v l r) 0)
        = (.run stack (.node a v l r) 1,
            (if RA = 0 then [a] else []) ++ l.bvisits RA) := by
      cases l with
      | nil =>
        have hzs : bzipStep RA (BZ.run stack (BTree.node a v .nil r) 0)
            = some (.run stack (.node a v .nil r) 1,
                if RA = 0 then some a else none) := rfl
        rw [show 1 + BTree.bsteps (α := α) .nil = 0 + 1 from rfl,
          bziterate_peel hzs, toList_if_yield]
        simp [bziterate, BTree.bvisits]
      | node a2 v2 l2 r2 =>
        have hzs : bzipStep RA (BZ.run stack (BTree.node a v (.node a2 v2 l2 r2) r) 0)
            = some (.run (⟨a, v, .node a2 v2 l2 r2, r, 1⟩ :: stack)
                  (.node a2 v2 l2 r2) 0,
                if RA = 0 then some a else none) := rfl
        rw [Nat.add_comm 1 (BTree.bsteps (.node a2 v2 l2 r2)), bziterate_peel hzs,
          bsegT RA (.node a2 v2 l2 r2)
            (⟨a, v, .node a2 v2 l2 r2, r, 1⟩ :: stack) (by simp),
          toList_if_yield]
        rfl
    have hseg2 : bziterate (1 + r.bsteps) RA (.run stack (.node a v l r) 1)
        = (.run stack (.node a v l r) 2,
            (if RA = 1 then [a] else []) ++ r.bvisits RA) := by
      cases r with
      | nil =>
        have hzs : bzipStep RA (BZ.run stack (BTree.node a v l .nil) 1)
            = some (.run stack (.node a v l .nil) 2,
                if RA = 1 then some a else none) := rfl
        rw [show 1 + BTree.bsteps (α := α) .nil = 0 + 1 from rfl,
          bziterate_peel hzs, toList_if_yield]
        simp [bziterate, BTree.bvisits]
      | node a2 v2 l2 r2 =>
        have hzs : bzipStep RA (BZ.run stack (BTree.node a v l (.node a2 v2 l2 r2)) 1)
            = some (.run (⟨a, v, l, .node a2 v2 l2 r2, 2⟩ :: stack)
                  (.node a2 v2 l2 r2) 0,
                if RA = 1 then some a else none) := rfl
        rw [Nat.add_comm 1 (BTree.bsteps (.node a2 v2 l2 r2)), bziterate_peel hzs,
          bsegT RA (.node a2 v2 l2 r2)
            (⟨a, v, l, .node a2 v2 l2 r2, 2⟩ :: stack) (by simp),
          toList_if_yield]
        rfl
    have hseg3 : bziterate 1 RA (.run stack (.node a v l r) 2)
        = (bpopTo stack, if RA = 2 then [a] else []) := by
      have hzs : bzipStep RA (BZ.run stack (BTree.node a v l r) 2)
          = some (bpopTo stack, if RA = 2 then some a else none) := by
        cases stack with
        | nil => rfl
        | cons f rest => rfl
      rw [show (1 : Nat) = 0 + 1 from rfl, bziterate_peel hzs, toList_if_yield]
      simp [bziterate]
    rw [show l.bsteps + r.bsteps + 3
        = (1 + l.bsteps) + ((1 + r.bsteps) + 1) from by omega]
    rw [bziterate_add RA (1 + l.bsteps) ((1 + r.bsteps) + 1), hseg1]
    rw [bziterate_add RA (1 + r.bsteps) 1, hseg2, hseg3]
    simp

theorem bziterate_full {α : Type} (RA : Nat) (t0 : BTree α) (hne : t0 ≠ .nil)
    {fuel : Nat} (hf : t0.bsteps ≤ fuel) :
    bziterate fuel RA (.run [] t0 0) = (.done, t0.bvisits RA) := by
  obtain ⟨m, rfl⟩ := Nat.exists_eq_add_of_le hf
  rw [bziterate_add RA t0.bsteps m, bsegT RA t0 [] hne]
  rw [show bpopTo ([] : List (BFrame α)) = .done from rfl, bziterate_done]
  simp

/-! ## Binary machine-level master theorems -/

theorem BOk_binit {α : Type} {t0 : BTree α} (hne : t0 ≠ .nil) :
    BOk t0 (.run [] t0 0) := ⟨rfl, hne, by omega⟩

theorem bdecode_binit {α : Type} {h0 : BHeap α} {t0 : BTree α}
    (hwf : BWf h0 t0) (hne : t0 ≠ .nil) :
    bdecode h0 t0 (.run [] t0 0) = ⟨h0, 0, t0.addrOf⟩ := by
  cases t0 with
  | nil => exact absurd rfl hne
  | node a v l r =>
    simp only [bdecode, bfocusEntries, bstackEntries, bheadAddr,
      List.cons_append, List.nil_append, bnodeAt_zero]
    rw [show bapplyEntries h0 [(a, (⟨v, l.addrOf, r.addrOf⟩ : BNode α))]
        = h0.upd a ⟨v, l.addrOf, r.addrOf⟩ from rfl]
    rw [BHeap.bupd_self_noop hwf.1.2.2.1]
    rfl

theorem bmicroRun_full {α : Type} {h0 : BHeap α} {RA : Nat} {t0 : BTree α}
    (hwf : BWf h0 t0) {fuel : Nat} (hf : t0.bsteps ≤ fuel) :
    bmicroRun fuel RA ⟨h0, 0, t0.addrOf⟩ = (⟨h0, t0.addrOf, 0⟩, t0.bvisits RA) := by
  cases ht : t0 with
  | nil =>
    cases fuel with
    | zero => rfl
    | succ fuel =>
      rw [bmicroRun]
      rfl
  | node a v l r =>
    rw [← ht]
    have hne : t0 ≠ .nil := by rw [ht]; simp
    rw [← bdecode_binit hwf hne, brun_sim hwf fuel (BOk_binit hne),
      bziterate_full RA t0 hne hf]
    rfl

theorem bmicroTake_decomp {α : Type} {h0 : BHeap α} {RA : Nat} {t0 : BTree α}
    (hwf : BWf h0 t0) (hne : t0 ≠ .nil) {fuel : Nat} (hf : t0.bsteps ≤ fuel)
    (k : Nat) :
    bmicroTake fuel k RA ⟨h0, 0, t0.addrOf⟩
      = (bdecode h0 t0 (bztake fuel k RA (.run [] t0 0)).1,
          (t0.bvisits RA).take k)
      ∧ BOk t0 (bztake fuel k RA (.run [] t0 0)).1 := by
  constructor
  · rw [← bdecode_binit hwf hne, btake_sim hwf fuel k (BOk_binit hne)]
    rw [bztake_yields RA fuel k, bziterate_full RA t0 hne hf]
  · exact bztake_ok fuel k (BOk_binit hne)

/-- The binary machine never executes the abort branch from a well-formed
initial state. -/
theorem bReachAbort_false {α : Type} {h0 : BHeap α} {RA : Nat} {t0 : BTree α}
    (hwf : BWf h0 t0) (j : Nat) :
    bReachAbort j RA ⟨h0, 0, t0.addrOf⟩ = false := by
  cases ht : t0 with
  | nil =>
    cases j with
    | zero => rfl
    | succ j =>
      rw [bReachAbort]
      rfl
  | node a v l r =>
    rw [← ht]
    have hne : t0 ≠ .nil := by rw [ht]; simp
    rw [← bdecode_binit hwf hne]
    exact babort_sim hwf j (BOk_binit hne)

/-! ## Binary visit sequences -/

theorem bpreA_eq_baddrs {α : Type} : ∀ t : BTree α, t.bpreA = t.baddrs
  | .nil => rfl
  | .node a v l r => by
    rw [BTree.bpreA, BTree.baddrs, bpreA_eq_baddrs l, bpreA_eq_baddrs r]

theorem bvisits_zero {α : Type} : ∀ t : BTree α, t.bvisits 0 = t.bpreA
  | .nil => rfl
  | .node a v l r => by
    rw [BTree.bvisits, BTree.bpreA, bvisits_zero l, bvisits_zero r]
    simp

theorem bvisits_one {α : Type} : ∀ t : BTree α, t.bvisits 1 = t.binA
  | .nil => rfl
  | .node a v l r => by
    rw [BTree.bvisits, BTree.binA, bvisits_one l, bvisits_one r]
    simp

theorem bvisits_two {α : Type} : ∀ t : BTree α, t.bvisits 2 = t.bpostA
  | .nil => rfl
  | .node a v l r => by
    rw [BTree.bvisits, BTree.bpostA, bvisits_two l, bvisits_two r]
    simp

theorem bpostA_perm {α : Type} : ∀ t : BTree α, t.bpostA.Perm t.baddrs
  | .nil => List.Perm.refl _
  | .node a v l r => by
    rw [BTree.bpostA, BTree.baddrs]
    have h1 : (l.bpostA ++ r.bpostA ++ [a]).Perm ([a] ++ (l.bpostA ++ r.bpostA)) :=
      List.perm_append_comm
    have h2 : ([a] ++ (l.bpostA ++ r.bpostA)).Perm (a :: (l.baddrs ++ r.baddrs)) :=
      ((bpostA_perm l).append (bpostA_perm r)).cons a
    exact h1.trans h2

theorem bpreA_vals {α : Type} {h : BHeap α} :
    ∀ {t : BTree α}, brep h t → t.bpreA.map (bvalAt h) = t.bpreV.map some
  | .nil, _ => rfl
  | .node a v l r, hrep => by
    rw [brep] at hrep
    rw [BTree.bpreA, BTree.bpreV, List.map_cons, List.map_cons, List.map_append,
      List.map_append, bpreA_vals hrep.2.2.2.1, bpreA_vals hrep.2.2.2.2]
    rw [bvalAt, hrep.2.2.1]
    rfl

theorem binA_vals {α : Type} {h : BHeap α} :
    ∀ {t : BTree α}, brep h t → t.binA.map (bvalAt h) = t.binV.map some
  | .nil, _ => rfl
  | .node a v l r, hrep => by
    rw [brep] at hrep
    rw [BTree.binA, BTree.binV, List.map_append, List.map_append, List.map_cons,
      List.map_cons, binA_vals hrep.2.2.2.1, binA_vals hrep.2.2.2.2]
    rw [bvalAt, hrep.2.2.1]
    rfl

theorem bpostA_vals {α : Type} {h : BHeap α} :
    ∀ {t : BTree α}, brep h t → t.bpostA.map (bvalAt h) = t.bpostV.map some
  | .nil, _ => rfl
  | .node a v l r, hrep => by
    rw [brep] at hrep
    rw [BTree.bpostA, BTree.bpostV, List.map_append, List.map_append,
      List.map_append, List.map_append, bpostA_vals hrep.2.2.2.1,
      bpostA_vals hrep.2.2.2.2, List.map_cons]
    rw [bvalAt, hrep.2.2.1]
    rfl

/-! ## Binary subtree decomposition of the post-order sequence -/

inductive BSubT {α : Type} : BTree α → BTree α → Prop
  | refl (t : BTree α) : BSubT t t
  | stepL (a : Nat) (v : α) (l r : BTree α) {sub : BTree α} :
      BSubT sub l → BSubT sub (.node a v l r)
  | stepR (a : Nat) (v : α) (l r : BTree α) {sub : BTree α} :
      BSubT sub r → BSubT sub (.node a v l r)

theorem bsubT_postA {α : Type} {sub t : BTree α} (h : BSubT sub t) :
    ∃ A B, t.bpostA = A ++ sub.bpostA ++ B := by
  induction h with
  | refl t => exact ⟨[], [], by simp⟩
  | stepL a v l r hsub ih =>
    obtain ⟨A, B, hAB⟩ := ih
    refine ⟨A, B ++ r.bpostA ++ [a], ?_⟩
    rw [BTree.bpostA, hAB]
    simp
  | stepR a v l r hsub ih =>
    obtain ⟨A, B, hAB⟩ := ih
    refine ⟨l.bpostA ++ A, B ++ [a], ?_⟩
    rw [BTree.bpostA, hAB]
    simp

theorem bsubT_baddrs {α : Type} {sub t : BTree α} (h : BSubT sub t) :
    ∀ x ∈ sub.baddrs, x ∈ t.baddrs := by
  induction h with
  | refl t => intro x hx; exact hx
  | stepL a v l r hsub ih =>
    intro x hx
    rw [BTree.baddrs]
    simp only [List.mem_cons, List.mem_append]
    exact Or.inr (Or.inl (ih x hx))
  | stepR a v l r hsub ih =>
    intro x hx
    rw [BTree.baddrs]
    simp only [List.mem_cons, List.mem_append]
    exact Or.inr (Or.inr (ih x hx))

/-! ## Fuzzing constructor (`node_from_arbitrary`, `src/array_tree.rs`) -/

/-- Logical tree built by the fuzzing constructor: a value byte and `N`
optional children. -/
inductive ATree where
  | mk (val : Nat) (children : List (Option ATree))

/-- `chunks(size_of::<Fence>())` over the mid-fence byte region: the complete
byte pairs, in order. -/
def pairChunks : List Nat → List (Nat × Nat)
  | b0 :: b1 :: rest => (b0, b1) :: pairChunks rest
  | _ => []

/-- `Fence::from_ne_bytes` on the little-endian hosts the crate targets. -/
def u16NE (b0 b1 : Nat) : Nat := b0 + 256 * b1

/-- The child byte ranges `fences[i]..fences.get(i+1).unwrap_or(data.len())`
read off the sorted fence array. -/
def sliceRanges (fences : List Nat) (dlen N : Nat) : List (Nat × Nat) :=
  (List.range N).map fun i => (fences.getD i 0, fences.getD (i + 1) dlen)

/-- Model of `node_from_arbitrary::<N>` (for `N ≥ 1`; `N = 0` underflows
`N - 1` in the source).  Returns the built optional node together with the
values this call pushes, in push order: the consumed head byte is the node's
value; if fewer than `(N - 1) * size_of::<Fence>()` bytes remain the node is
built with `N` absent children; otherwise `N - 1` mid fences are decoded,
clamped by `% (data.len() + 1)`, sorted together with `0` and `data.len()`,
and each child is built from its fence-delimited slice. -/
def nodeFromArbitrary (N : Nat) (data : List Nat) : Option ATree × List Nat :=
  match data with
  | [] => (none, [])
  | val :: rest =>
    if rest.length < (N - 1) * 2 then
      (some (.mk val (List.replicate N none)), [val])
    else
      let data2 := rest.drop ((N - 1) * 2)
      let fences0 := (List.replicate N 0).set (N - 1) data2.length
      let fences1 := (pairChunks (rest.take ((N - 1) * 2))).enum.foldl
        (fun fs ib => fs.set (ib.1 + 1) (u16NE ib.2.1 ib.2.2 % (data2.length + 1)))
        fences0
      let fences := fences1.mergeSort (fun x y => x ≤ y)
      let results := (sliceRanges fences data2.length N).attach.map
        (fun lohi =>
          nodeFromArbitrary N ((data2.drop lohi.1.1).take (lohi.1.2 - lohi.1.1)))
      (some (.mk val (results.map Prod.fst)),
        val :: (results.map Prod.snd).flatten)
termination_by data.length
decreasing_by
  simp only [List.length_take, List.length_drop, List.length_cons]
  omega

/-! ## Leaf-first positioning of descendants in post-order -/

theorem postA_desc_before {α : Type} {t0 : NTree α} (hnd : t0.taddrs.Nodup)
    {a : Nat} {v : α} {cs : NForest α} (hsub : SubT (.node a v cs) t0) :
    ∀ x ∈ cs.faddrs, t0.postA.indexOf x < t0.postA.indexOf a := by
  intro x hx
  obtain ⟨A, B, hAB⟩ := subT_postA hsub
  rw [NTree.postA] at hAB
  have hx' : x ∈ cs.fpostA := ((fpostA_perm cs).mem_iff).2 hx
  have hnd' : t0.postA.Nodup := ((postA_perm t0).nodup_iff).2 hnd
  rw [hAB] at hnd' ⊢
  exact mem_before_last hx' hnd'

theorem bpostA_desc_before {α : Type} {t0 : BTree α} (hnd : t0.baddrs.Nodup)
    {a : Nat} {v : α} {l r : BTree α} (hsub : BSubT (.node a v l r) t0) :
    ∀ x ∈ l.baddrs ++ r.baddrs, t0.bpostA.indexOf x < t0.bpostA.indexOf a := by
  intro x hx
  obtain ⟨A, B, hAB⟩ := bsubT_postA hsub
  rw [BTree.bpostA] at hAB
  have hx' : x ∈ l.bpostA ++ r.bpostA := by
    rcases List.mem_append.1 hx with h | h
    · exact List.mem_append.2 (Or.inl (((bpostA_perm l).mem_iff).2 h))
    · exact List.mem_append.2 (Or.inr (((bpostA_perm r).mem_iff).2 h))
  have hnd' : t0.bpostA.Nodup := ((bpostA_perm t0).nodup_iff).2 hnd
  rw [hAB] at hnd' ⊢
  exact mem_before_last hx' hnd'

/-- A null root makes the traversal exhaust immediately: nothing is yielded
(and nothing would be freed by the tree drop loop). -/
theorem microRun_null {α : Type} (fuel N RA : Nat) (h : Heap α) :
    microRun fuel N RA ⟨h, 0, 0⟩ = (⟨h, 0, 0⟩, []) := by
  cases fuel with
  | zero => rfl
  | succ fuel => rfl

theorem bmicroRun_null {α : Type} (fuel RA : Nat) (h : BHeap α) :
    bmicroRun fuel RA ⟨h, 0, 0⟩ = (⟨h, 0, 0⟩, []) := by
  cases fuel with
  | zero => rfl
  | succ fuel => rfl

/-! ## Concrete instances (the crate test trees) -/

/-- Heap of the `basic` test tree `0(1(2,n), 3(4,5))`, arity 2, nodes at
even addresses 2..12. -/
def exH2 : Heap Nat := fun a =>
  if a = 2 then some ⟨0, [4, 8]⟩
  else if a = 4 then some ⟨1, [6, 0]⟩
  else if a = 6 then some ⟨2, [0, 0]⟩
  else if a = 8 then some ⟨3, [10, 12]⟩
  else if a = 10 then some ⟨4, [0, 0]⟩
  else if a = 12 then some ⟨5, [0, 0]⟩
  else none

def exT2 : NTree Nat :=
  .node 2 0
    (.scons (.node 4 1 (.scons (.node 6 2 (.snull (.snull .nil))) (.snull .nil)))
      (.scons (.node 8 3 (.scons (.node 10 4 (.snull (.snull .nil)))
        (.scons (.node 12 5 (.snull (.snull .nil))) .nil))) .nil))

/-- Two-node chain `0 -> 1`, arity 1. -/
def exH7 : Heap Nat := fun a =>
  if a = 2 then some ⟨0, [4]⟩
  else if a = 4 then some ⟨1, [0]⟩
  else none

def exT7 : NTree Nat :=
  .node 2 0 (.scons (.node 4 1 (.snull .nil)) .nil)

/-- Single node, arity 1. -/
def exH8 : Heap Nat := fun a =>
  if a = 2 then some ⟨0, [0]⟩ else none

def exT8 : NTree Nat := .node 2 0 (.snull .nil)

/-- Binary heap of the tree `0(1(2,n), 3(4,5))` at addresses 2..12. -/
def exBH : BHeap Nat := fun a =>
  if a = 2 then some ⟨0, 4, 8⟩
  else if a = 4 then some ⟨1, 6, 0⟩
  else if a = 6 then some ⟨2, 0, 0⟩
  else if a = 8 then some ⟨3, 10, 12⟩
  else if a = 10 then some ⟨4, 0, 0⟩
  else if a = 12 then some ⟨5, 0, 0⟩
  else none

def exBT : BTree Nat :=
  .node 2 0 (.node 4 1 (.node 6 2 .nil .nil) .nil)
    (.node 8 3 (.node 10 4 .nil .nil) (.node 12 5 .nil .nil))

/-- Single binary leaf with value 42. -/
def exBHleaf : BHeap Nat := fun a =>
  if a = 2 then some ⟨42, 0, 0⟩ else none

def exBTleaf : BTree Nat := .node 2 42 .nil .nil

theorem exH2_wf : Wf exH2 2 exT2 := by decide

theorem exBH_wf : BWf exBH exBT := by decide

/-! ## Claim theorems -/

/-- C1: for every well-formed N-ary tree, driving the mutable DFS iterator
obtained from `dfs_iter_mut` (`RETURN_ON_VISIT = 0`) to exhaustion yields
exactly the node-value sequence of an independent recursive pre-order
traversal of the same logical tree. -/
theorem C1_dfs_preorder {α : Type} {h0 : Heap α} {N : Nat} {t0 : NTree α}
    (hwf : Wf h0 N t0) {fuel : Nat} (hf : t0.tsteps ≤ fuel) :
    (microRun fuel N 0 ⟨h0, 0, t0.addr⟩).2.map (valAt h0) = t0.preV.map some := by
  rw [microRun_full hwf hf, tvisits_zero, preA_vals hwf.1]

theorem C1_dfs_preorder_witness :
    Wf exH2 2 exT2 ∧ exT2.tsteps ≤ 20
    ∧ (microRun 20 2 0 ⟨exH2, 0, exT2.addr⟩).2.map (valAt exH2)
        = exT2.preV.map some :=
  ⟨exH2_wf, by decide, C1_dfs_preorder exH2_wf (by decide)⟩

/-- C2: after a traversal iterator is driven to exhaustion the heap again
holds every child slot in its original untagged form, and a second full
traversal of the same tree yields the identical sequence. -/
theorem C2_restore_and_repeat {α : Type} {h0 : Heap α} {N RA : Nat}
    {t0 : NTree α} (hwf : Wf h0 N t0) {fuel : Nat} (hf : t0.tsteps ≤ fuel) :
    (microRun fuel N RA ⟨h0, 0, t0.addr⟩).1.h = h0
    ∧ (microRun fuel N RA ⟨(microRun fuel N RA ⟨h0, 0, t0.addr⟩).1.h, 0,
          t0.addr⟩).2
        = (microRun fuel N RA ⟨h0, 0, t0.addr⟩).2 := by
  have h1 : (microRun fuel N RA ⟨h0, 0, t0.addr⟩).1.h = h0 := by
    rw [microRun_full hwf hf]
  refine ⟨h1, ?_⟩
  rw [h1]

theorem C2_restore_and_repeat_witness :
    Wf exH2 2 exT2 ∧ exT2.tsteps ≤ 20
    ∧ ((microRun 20 2 0 ⟨exH2, 0, exT2.addr⟩).1.h = exH2
      ∧ (microRun 20 2 0 ⟨(microRun 20 2 0 ⟨exH2, 0, exT2.addr⟩).1.h, 0,
            exT2.addr⟩).2
          = (microRun 20 2 0 ⟨exH2, 0, exT2.addr⟩).2) :=
  ⟨exH2_wf, by decide, C2_restore_and_repeat exH2_wf (by decide)⟩

/-- C3: stopping a pre-order traversal after any `k` yields, running the
iterator release loop, and then performing a fresh full traversal reproduces
the original full pre-order value sequence; and the values yielded before
abandonment are exactly the first `k` of that sequence. -/
theorem C3_abandon_resume {α : Type} {h0 : Heap α} {N : Nat} {t0 : NTree α}
    (hwf : Wf h0 N t0) {fuel fuel2 fuel3 : Nat} (hf : t0.tsteps ≤ fuel)
    (hf2 : t0.tsteps ≤ fuel2) (hf3 : t0.tsteps ≤ fuel3) (k : Nat) :
    (microTake fuel k N 0 ⟨h0, 0, t0.addr⟩).2.map (valAt h0)
        = (t0.preV.map some).take k
    ∧ (microRun fuel3 N 0
          ⟨(dropRun fuel2 N (microTake fuel k N 0 ⟨h0, 0, t0.addr⟩).1).h, 0,
            t0.addr⟩).2.map (valAt h0)
        = t0.preV.map some := by
  obtain ⟨heq, _⟩ := @microTake_decomp α h0 N 0 t0 hwf fuel hf k
  have hd := @microTake_dropRun α h0 N 0 t0 hwf fuel fuel2 hf hf2 k
  constructor
  · rw [heq]
    show ((t0.tvisits 0).take k).map (valAt h0) = (t0.preV.map some).take k
    rw [List.map_take, tvisits_zero, preA_vals hwf.1]
  · rw [hd]
    show (microRun fuel3 N 0 ⟨h0, 0, t0.addr⟩).2.map (valAt h0)
        = t0.preV.map some
    rw [microRun_full hwf hf3, tvisits_zero, preA_vals hwf.1]

theorem C3_abandon_resume_witness :
    Wf exH2 2 exT2 ∧ exT2.tsteps ≤ 20
    ∧ ((microTake 20 3 2 0 ⟨exH2, 0, exT2.addr⟩).2.map (valAt exH2)
          = (exT2.preV.map some).take 3
      ∧ (microRun 20 2 0
            ⟨(dropRun 20 2 (microTake 20 3 2 0 ⟨exH2, 0, exT2.addr⟩).1).h, 0,
              exT2.addr⟩).2.map (valAt exH2)
          = exT2.preV.map some) :=
  ⟨exH2_wf, by decide,
    C3_abandon_resume exH2_wf (by decide) (by decide) (by decide) 3⟩

/-- C4: for every well-formed binary tree the iterator with
`RETURN_ON_VISIT = 0`, `1`, `2` yields exactly the reference pre-order,
in-order and post-order value sequences. -/
theorem C4_binary_orders {α : Type} {h0 : BHeap α} {t0 : BTree α}
    (hwf : BWf h0 t0) {fuel : Nat} (hf : t0.bsteps ≤ fuel) :
    (bmicroRun fuel 0 ⟨h0, 0, t0.addrOf⟩).2.map (bvalAt h0) = t0.bpreV.map some
    ∧ (bmicroRun fuel 1 ⟨h0, 0, t0.addrOf⟩).2.map (bvalAt h0) = t0.binV.map some
    ∧ (bmicroRun fuel 2 ⟨h0, 0, t0.addrOf⟩).2.map (bvalAt h0)
        = t0.bpostV.map some := by
  refine ⟨?_, ?_, ?_⟩ <;> rw [bmicroRun_full hwf hf]
  · rw [bvisits_zero, bpreA_vals hwf.1]
  · rw [bvisits_one, binA_vals hwf.1]
  · rw [bvisits_two, bpostA_vals hwf.1]

theorem C4_binary_orders_witness :
    BWf exBHleaf exBTleaf ∧ exBTleaf.bsteps ≤ 9
    ∧ ((bmicroRun 9 0 ⟨exBHleaf, 0, exBTleaf.addrOf⟩).2.map (bvalAt exBHleaf)
          = exBTleaf.bpreV.map some
      ∧ (bmicroRun 9 1 ⟨exBHleaf, 0, exBTleaf.addrOf⟩).2.map (bvalAt exBHleaf)
          = exBTleaf.binV.map some
      ∧ (bmicroRun 9 2 ⟨exBHleaf, 0, exBTleaf.addrOf⟩).2.map (bvalAt exBHleaf)
          = exBTleaf.bpostV.map some) :=
  ⟨by decide, by decide, C4_binary_orders (by decide) (by decide)⟩

/-- C5 (refuted by the code): the binary iterator's release is a no-op (the
`TODO: dropping iter needs to fixup the tree` is unimplemented), so on the
tree `0(1(2,nil), 3(4,5))` stopping after the 3 pre-order yields `0,1,2` and
discarding the iterator leaves the tree threaded: a fresh full traversal
yields `3,4,5`, not `0,1,2,3,4,5`. -/
theorem C5_drop_no_restore :
    (bmicroTake 20 3 0 ⟨exBH, 0, 2⟩).2.map (bvalAt exBH)
        = [some 0, some 1, some 2]
    ∧ bIterDrop (bmicroTake 20 3 0 ⟨exBH, 0, 2⟩).1
        = (bmicroTake 20 3 0 ⟨exBH, 0, 2⟩).1
    ∧ (bmicroRun 20 0 ⟨(bIterDrop (bmicroTake 20 3 0 ⟨exBH, 0, 2⟩).1).h, 0,
          2⟩).2.map (bvalAt exBH)
        = [some 3, some 4, some 5]
    ∧ exBT.bpreV.map some
        = [some 0, some 1, some 2, some 3, some 4, some 5] :=
  ⟨by decide, rfl, by decide, by decide⟩

/-- C6: destroying a tree runs the traversal machine in post-order mode
(`RETURN_ON_VISIT = N`, resp. `2`) from the root; every node is yielded (and
so freed) exactly once, every node is yielded only after all of its
descendants, and a null root yields (frees) nothing. -/
theorem C6_drop_postorder {α : Type} {h0 : Heap α} {N : Nat} {t0 : NTree α}
    {bh0 : BHeap α} {bt0 : BTree α}
    (hwf : Wf h0 N t0) (hbwf : BWf bh0 bt0) {fuel fuel2 : Nat}
    (hf : t0.tsteps ≤ fuel) (hbf : bt0.bsteps ≤ fuel2) :
    ((microRun fuel N N ⟨h0, 0, t0.addr⟩).2.Perm t0.taddrs
      ∧ (∀ (a : Nat) (v : α) (cs : NForest α), SubT (.node a v cs) t0 →
          ∀ x ∈ cs.faddrs,
          (microRun fuel N N ⟨h0, 0, t0.addr⟩).2.indexOf x
            < (microRun fuel N N ⟨h0, 0, t0.addr⟩).2.indexOf a)
      ∧ microRun fuel N N ⟨h0, 0, 0⟩ = (⟨h0, 0, 0⟩, []))
    ∧ ((bmicroRun fuel2 2 ⟨bh0, 0, bt0.addrOf⟩).2.Perm bt0.baddrs
      ∧ (∀ (a : Nat) (v : α) (l r : BTree α), BSubT (.node a v l r) bt0 →
          ∀ x ∈ l.baddrs ++ r.baddrs,
          (bmicroRun fuel2 2 ⟨bh0, 0, bt0.addrOf⟩).2.indexOf x
            < (bmicroRun fuel2 2 ⟨bh0, 0, bt0.addrOf⟩).2.indexOf a)
      ∧ bmicroRun fuel2 2 ⟨bh0, 0, 0⟩ = (⟨bh0, 0, 0⟩, [])) := by
  have hN : (microRun fuel N N ⟨h0, 0, t0.addr⟩).2 = t0.postA := by
    rw [microRun_full hwf hf, tvisits_post (repT_sized hwf.1)]
  have hB : (bmicroRun fuel2 2 ⟨bh0, 0, bt0.addrOf⟩).2 = bt0.bpostA := by
    rw [bmicroRun_full hbwf hbf, bvisits_two]
  refine ⟨⟨?_, ?_, microRun_null fuel N N h0⟩,
    ⟨?_, ?_, bmicroRun_null fuel2 2 bh0⟩⟩
  · rw [hN]
    exact postA_perm t0
  · intro a v cs hsub x hx
    rw [hN]
    exact postA_desc_before hwf.2 hsub x hx
  · rw [hB]
    exact bpostA_perm bt0
  · intro a v l r hsub x hx
    rw [hB]
    exact bpostA_desc_before hbwf.2 hsub x hx

theorem C6_drop_postorder_witness :
    Wf exH2 2 exT2 ∧ BWf exBH exBT ∧ exT2.tsteps ≤ 20 ∧ exBT.bsteps ≤ 20
    ∧ (((microRun 20 2 2 ⟨exH2, 0, exT2.addr⟩).2.Perm exT2.taddrs
        ∧ (∀ (a : Nat) (v : Nat) (cs : NForest Nat), SubT (.node a v cs) exT2 →
            ∀ x ∈ cs.faddrs,
            (microRun 20 2 2 ⟨exH2, 0, exT2.addr⟩).2.indexOf x
              < (microRun 20 2 2 ⟨exH2, 0, exT2.addr⟩).2.indexOf a)
        ∧ microRun 20 2 2 ⟨exH2, 0, 0⟩ = (⟨exH2, 0, 0⟩, []))
      ∧ ((bmicroRun 20 2 ⟨exBH, 0, exBT.addrOf⟩).2.Perm exBT.baddrs
        ∧ (∀ (a : Nat) (v : Nat) (l r : BTree Nat), BSubT (.node a v l r) exBT →
            ∀ x ∈ l.baddrs ++ r.baddrs,
            (bmicroRun 20 2 ⟨exBH, 0, exBT.addrOf⟩).2.indexOf x
              < (bmicroRun 20 2 ⟨exBH, 0, exBT.addrOf⟩).2.indexOf a)
        ∧ bmicroRun 20 2 ⟨exBH, 0, 0⟩ = (⟨exBH, 0, 0⟩, []))) :=
  ⟨exH2_wf, exBH_wf, by decide, by decide,
    C6_drop_postorder exH2_wf exBH_wf (by decide) (by decide)⟩

/-- C7 counterexample: one step into the two-node arity-1 chain, the current
node (address 4) lies on the path from the current node up to the root but
carries no seen-tagged slot, refuting that exactly the nodes on that path
have overwritten slots. -/
theorem C7_path_cex :
    Wf exH7 1 exT7
    ∧ (iterN 1 1 0 ⟨exH7, 0, exT7.addr⟩).map
        (fun s => (s.cur, hasSeenSlot s.h s.cur)) = some (4, false)
    ∧ 4 ∈ exT7.taddrs :=
  ⟨by decide, by decide, by decide⟩

/-- C7 amended: at every reachable mid-traversal state the nodes carrying
seen-tagged slots are exactly the addresses of a descending chain starting at
the root (the strict ancestors of the current node, plus the current node
itself once its first slot has been converted), and every node off that chain
has its exact at-rest heap image — untouched or fully restored. -/
theorem C7_invariant {α : Type} {h0 : Heap α} {N RA : Nat} {t0 : NTree α}
    (hwf : Wf h0 N t0) {j : Nat} {s' : St α}
    (hj : iterN j N RA ⟨h0, 0, t0.addr⟩ = some s') :
    ∃ as : List Nat, IsChain t0 as
      ∧ (∀ x ∈ t0.taddrs, (hasSeenSlot s'.h x = true ↔ x ∈ as))
      ∧ (∀ x, x ∉ as → s'.h x = h0 x) := by
  obtain ⟨Z, hok, rfl⟩ := iterN_char hwf hj
  refine ⟨(spineSeenAddrs Z).reverse, spineSeen_chain hok, ?_, ?_⟩
  · intro x hx
    rw [decode_seen_iff hwf hok x hx, List.mem_reverse]
  · intro x hx
    exact decode_off_spine hwf hok x (fun hmem => hx (List.mem_reverse.2 hmem))

theorem C7_invariant_witness :
    Wf exH7 1 exT7
    ∧ iterN 1 1 0 ⟨exH7, 0, exT7.addr⟩
        = some ((iterN 1 1 0 ⟨exH7, 0, exT7.addr⟩).getD ⟨exH7, 0, 0⟩)
    ∧ (∃ as : List Nat, IsChain exT7 as
        ∧ (∀ x ∈ exT7.taddrs,
            (hasSeenSlot ((iterN 1 1 0 ⟨exH7, 0, exT7.addr⟩).getD
                ⟨exH7, 0, 0⟩).h x = true ↔ x ∈ as))
        ∧ (∀ x, x ∉ as →
            ((iterN 1 1 0 ⟨exH7, 0, exT7.addr⟩).getD ⟨exH7, 0, 0⟩).h x
              = exH7 x)) :=
  ⟨by decide, by rfl,
    @C7_invariant Nat exH7 1 0 exT7 (by decide) 1
      ((iterN 1 1 0 ⟨exH7, 0, exT7.addr⟩).getD ⟨exH7, 0, 0⟩) (by rfl)⟩

/-- C8 counterexample: for the well-formed single-node arity-1 tree the
exhausted iterator ends with `cur` null but `prev` equal to the root address
2, not null. -/
theorem C8_prev_cex :
    Wf exH8 1 exT8
    ∧ (microRun 9 1 0 ⟨exH8, 0, exT8.addr⟩).1.cur = 0
    ∧ (microRun 9 1 0 ⟨exH8, 0, exT8.addr⟩).1.prev = 2 :=
  ⟨by decide, by decide, by decide⟩

/-- C8 amended: after the traversal iterator is driven to exhaustion `cur` is
null and `prev` holds the root's address (which is null only for an empty
tree). -/
theorem C8_end_state {α : Type} {h0 : Heap α} {N RA : Nat} {t0 : NTree α}
    (hwf : Wf h0 N t0) {fuel : Nat} (hf : t0.tsteps ≤ fuel) :
    (microRun fuel N RA ⟨h0, 0, t0.addr⟩).1.cur = 0
    ∧ (microRun fuel N RA ⟨h0, 0, t0.addr⟩).1.prev = t0.addr := by
  rw [microRun_full hwf hf]
  exact ⟨rfl, rfl⟩

theorem C8_end_state_witness :
    Wf exH8 1 exT8 ∧ exT8.tsteps ≤ 9
    ∧ ((microRun 9 1 0 ⟨exH8, 0, exT8.addr⟩).1.cur = 0
      ∧ (microRun 9 1 0 ⟨exH8, 0, exT8.addr⟩).1.prev = exT8.addr) :=
  ⟨by decide, by decide, C8_end_state (by decide) (by decide)⟩

/-- C9: starting from a well-formed binary tree at rest, the traversal step
machine never reaches a node whose left seen tag is clear while its right
seen tag is set, so the `(false, true)` `unreachable!` branch is never
executed, for any `RETURN_ON_VISIT` and any number of iterations. -/
theorem C9_no_abort {α : Type} {h0 : BHeap α} {t0 : BTree α}
    (hwf : BWf h0 t0) (RA j : Nat) :
    bReachAbort j RA ⟨h0, 0, t0.addrOf⟩ = false :=
  bReachAbort_false hwf j

theorem C9_no_abort_witness :
    BWf exBH exBT ∧ bReachAbort 20 1 ⟨exBH, 0, exBT.addrOf⟩ = false :=
  ⟨exBH_wf, C9_no_abort exBH_wf 1 20⟩

/-- C10: in `node_from_arbitrary`, after consuming one byte as the node's
value, if fewer than `(N-1) * size_of::<u16>()` bytes remain the node is
built with all `N` children absent and the remaining bytes are discarded:
they produce no descendants and contribute nothing to the value vector. -/
theorem C10_short_data {N : Nat} {data rest : List Nat} {val : Nat}
    (hdata : data = val :: rest) (hshort : rest.length < (N - 1) * 2) :
    nodeFromArbitrary N data
      = (some (.mk val (List.replicate N none)), [val]) := by
  subst hdata
  unfold nodeFromArbitrary
  rw [if_pos hshort]

theorem C10_short_data_witness :
    ([7, 1, 2] : List Nat) = 7 :: [1, 2]
    ∧ ([1, 2] : List Nat).length < (3 - 1) * 2
    ∧ nodeFromArbitrary 3 [7, 1, 2]
        = (some (.mk 7 (List.replicate 3 none)), [7]) :=
  ⟨rfl, by decide, C10_short_data rfl (by decide)⟩

end CSD
